import Mathlib

/-!
# Verification of the suitcase-sas metadata-to-HDF5 core

A shallow embedding of `src/suitcase/nxsas/utils.py`: the bluesky
reference-path grammar parser, the reference resolver, the recursive
tree interpreter `_copy_nexus_md_to_nexus_h5`, and the two flat-mapping
copiers `_copy_metadata_to_h5_attrs` and `_copy_metadata_to_h5_datasets`,
together with a model of the external libraries they lean on
(h5py attribute/dataset acceptance, Python's `json.dumps`/`json.loads`).

Python dict-shaped metadata values are embedded as the mutually inductive
`MdValue`/`MdArr`/`MdMap`; the HDF5 file is embedded as the tree `H5Node`
in which a hard link is represented by the absolute path of its target.
All functions are computable and structurally recursive so that concrete
runs evaluate by `rfl`/`decide`.
-/

namespace SuitcaseSas

/-! ## Metadata values (Python objects appearing in the metadata dictionaries) -/

mutual

/-- A Python value as it appears in the nexus metadata dictionaries:
`None`, `bool`, `int`, `str`, `bytes` (a list of byte values),
a list, or a dict (an ordered string-keyed mapping). -/
inductive MdValue where
  | null : MdValue
  | bool (b : Bool) : MdValue
  | int (n : Int) : MdValue
  | str (s : String) : MdValue
  | bytes (bs : List Nat) : MdValue
  | arr (vs : MdArr) : MdValue
  | map (es : MdMap) : MdValue

/-- A Python list of metadata values. -/
inductive MdArr where
  | nil : MdArr
  | cons (v : MdValue) (vs : MdArr) : MdArr

/-- A Python dict of metadata values: ordered key/value pairs. -/
inductive MdMap where
  | nil : MdMap
  | cons (k : String) (v : MdValue) (es : MdMap) : MdMap

end

/-- Convert a Lean list to an `MdArr`. -/
def MdArr.ofList : List MdValue → MdArr
  | [] => .nil
  | v :: vs => .cons v (MdArr.ofList vs)

/-- Convert a Lean association list to an `MdMap`. -/
def MdMap.ofList : List (String × MdValue) → MdMap
  | [] => .nil
  | (k, v) :: es => .cons k v (MdMap.ofList es)

/-- Python `d[k]` / `k in d`: find the value at the first occurrence of a key. -/
def MdMap.find : MdMap → String → Option MdValue
  | .nil, _ => none
  | .cons k v es, key => if k = key then some v else MdMap.find es key

/-- The keys of an `MdMap`, in order. -/
def MdMap.keys : MdMap → List String
  | .nil => []
  | .cons k _ es => k :: MdMap.keys es

mutual

/-- No key occurs twice at any nesting level (a guarantee of Python dicts). -/
def mdNoDupKeys : MdMap → Bool
  | .nil => true
  | .cons k v es =>
      !(MdMap.keys es).contains k && mdValueNoDupKeys v && mdNoDupKeys es

/-- Auxiliary for `mdNoDupKeys`: descend through values. -/
def mdValueNoDupKeys : MdValue → Bool
  | .map es => mdNoDupKeys es
  | .arr vs => mdArrNoDupKeys vs
  | _ => true

/-- Auxiliary for `mdNoDupKeys`: descend through arrays. -/
def mdArrNoDupKeys : MdArr → Bool
  | .nil => true
  | .cons v vs => mdValueNoDupKeys v && mdArrNoDupKeys vs

end

/-- The value reached from a map by following a nonempty path of keys,
descending through nested maps. -/
def mdValueAt : MdMap → List String → Option MdValue
  | _, [] => none
  | m, [k] => m.find k
  | m, k :: rest =>
      match m.find k with
      | some (.map m') => mdValueAt m' rest
      | _ => none

/-! ## Association lists for the HDF5 model -/

/-- Find the value at the first occurrence of a key in an association list. -/
def findA {α : Type} : List (String × α) → String → Option α
  | [], _ => none
  | (k, v) :: rest, key => if k = key then some v else findA rest key

/-- Replace the value at the first occurrence of a key. -/
def replaceA {α : Type} : List (String × α) → String → α → List (String × α)
  | [], _, _ => []
  | (k, v) :: rest, key, newV =>
      if k = key then (k, newV) :: rest else (k, v) :: replaceA rest key newV

/-- Python-dict style assignment: replace the existing binding or append. -/
def setA {α : Type} (l : List (String × α)) (key : String) (v : α) :
    List (String × α) :=
  if (findA l key).isSome then replaceA l key v else l ++ [(key, v)]

/-! ## The HDF5 file model

A node is a group (attributes plus named children), a dataset
(attributes plus data), or a hard link, represented by the absolute
path of the object it aliases. -/

/-- A node of the destination HDF5 hierarchy. -/
inductive H5Node where
  | group (attrs : List (String × MdValue)) (children : List (String × H5Node)) : H5Node
  | dataset (attrs : List (String × MdValue)) (data : MdValue) : H5Node
  | link (target : List String) : H5Node

/-- Child lookup by name (groups only; datasets and links have no children). -/
def getChild : H5Node → String → Option H5Node
  | .group _ cs, k => findA cs k
  | _, _ => none

/-- Walk a path of child names from a node. -/
def getAtPath : H5Node → List String → Option H5Node
  | n, [] => some n
  | n, k :: rest =>
      match getChild n k with
      | some c => getAtPath c rest
      | none => none

/-- Apply a fallible update to the node at a path, rebuilding the tree;
fails if the path does not lead through existing groups. -/
def modifyAtPath : H5Node → List String → (H5Node → Except String H5Node) →
    Except String H5Node
  | n, [], f => f n
  | .group attrs cs, k :: rest, f =>
      match findA cs k with
      | none => .error ("KeyError: " ++ k)
      | some c =>
          match modifyAtPath c rest f with
          | .error e => .error e
          | .ok c' => .ok (.group attrs (replaceA cs k c'))
  | _, _ :: _, _ => .error "not a group"

/-- The attributes of a node (links carry none in this model). -/
def nodeAttrs : H5Node → List (String × MdValue)
  | .group attrs _ => attrs
  | .dataset attrs _ => attrs
  | .link _ => []

/-- Read one attribute of the node at a path. -/
def attrAtPath (root : H5Node) (path : List String) (name : String) :
    Option MdValue :=
  match getAtPath root path with
  | some n => findA (nodeAttrs n) name
  | none => none

/-- Read the data of the dataset at a path. -/
def dataAtPath (root : H5Node) (path : List String) : Option MdValue :=
  match getAtPath root path with
  | some (.dataset _ d) => some d
  | _ => none

/-! ## The bluesky reference-path grammar

An embedding of `_bluesky_doc_query_re`, the Python regex

`^#bluesky/(?P<doc>(start|stop|desc/(?P<stream>\w+)))(?P<all_keys>(/\w+)*)(@(?P<attribute>\w+))?`

under `re.match` semantics: the match is anchored at the start of the
string only, so characters after the matched portion are ignored.
Because everything after the `doc` alternation can match the empty
string, the regex engine never needs to backtrack, and the greedy
left-to-right reading below is exact.  `\w` is modelled by its ASCII
restriction (letters, digits, underscore). -/

/-- ASCII restriction of the regex class `\w`. -/
def isWordChar (c : Char) : Bool := c.isAlphanum || c = '_'

/-- Greedily split off the longest prefix satisfying a predicate. -/
def takeWhileP (p : Char → Bool) : List Char → List Char × List Char
  | [] => ([], [])
  | c :: cs =>
      if p c then
        let (w, r) := takeWhileP p cs
        (c :: w, r)
      else ([], c :: cs)

/-- Greedily consume `\w*`: the longest word-character prefix and the rest. -/
def takeWord (cs : List Char) : List Char × List Char :=
  takeWhileP isWordChar cs

/-- Strip an expected literal prefix. -/
def stripPrefixChars : List Char → List Char → Option (List Char)
  | [], s => some s
  | _ :: _, [] => none
  | p :: ps, c :: cs => if c = p then stripPrefixChars ps cs else none

/-- Greedily consume `(/\w+)*`, returning the segments and the rest.
Fuel-driven so the function is structurally recursive; each iteration
consumes at least two characters, so fuel equal to the input length
is always enough. -/
def keysLoopF : Nat → List Char → List String × List Char
  | 0, cs => ([], cs)
  | fuel + 1, cs =>
      match cs with
      | [] => ([], [])
      | c :: rest =>
          if c = '/' then
            let (w, r) := takeWord rest
            if w.isEmpty then ([], c :: rest)
            else
              let (ks, r') := keysLoopF fuel r
              (String.mk w :: ks, r')
          else ([], c :: rest)

/-- Consume the alternation `start|stop|desc/\w+` (tried left to right),
returning the raw text of the `doc` group, the `stream` group, and the rest. -/
def matchDoc (cs : List Char) : Option (String × Option String × List Char) :=
  match stripPrefixChars "start".data cs with
  | some r => some ("start", none, r)
  | none =>
      match stripPrefixChars "stop".data cs with
      | some r => some ("stop", none, r)
      | none =>
          match stripPrefixChars "desc/".data cs with
          | some r =>
              let (w, r') := takeWord r
              if w.isEmpty then none
              else some ("desc/" ++ String.mk w, some (String.mk w), r')
          | none => none

/-- Consume the optional suffix `(@\w+)?`. -/
def matchAttr (cs : List Char) : Option String × List Char :=
  match cs with
  | [] => (none, [])
  | c :: rest =>
      if c = '@' then
        let (w, r) := takeWord rest
        if w.isEmpty then (none, c :: rest) else (some (String.mk w), r)
      else (none, c :: rest)

/-- The named groups of a successful `_bluesky_doc_query_re.match`. -/
structure ReMatch where
  doc : String
  stream : Option String
  allKeys : String
  attr : Option String
deriving DecidableEq

/-- Rebuild the raw text of the `all_keys` group from its segments. -/
def joinSlash : List String → List Char
  | [] => []
  | k :: ks => '/' :: (k.data ++ joinSlash ks)

/-- Python `s.split("/")` on a character list. -/
def splitOnSlashAux : List Char → List Char → List String
  | [], acc => [String.mk acc.reverse]
  | c :: cs, acc =>
      if c = '/' then String.mk acc.reverse :: splitOnSlashAux cs []
      else splitOnSlashAux cs (c :: acc)

/-- Python `s.split("/")`. -/
def splitOnSlash (s : String) : List String :=
  splitOnSlashAux s.data []

/-- Run `_bluesky_doc_query_re.match` on a character list. -/
def matchBlueskyChars (s : List Char) : Option ReMatch :=
  match stripPrefixChars "#bluesky/".data s with
  | none => none
  | some r0 =>
      match matchDoc r0 with
      | none => none
      | some (doc, stream, r1) =>
          let (ks, r2) := keysLoopF r1.length r1
          let (attr, _) := matchAttr r2
          some ⟨doc, stream, String.mk (joinSlash ks), attr⟩

/-- The Parsed Path Descriptor produced by `_parse_bluesky_document_path`. -/
structure PathInfo where
  doc : String
  stream : Option String
  keys : List String
  attr : Option String
deriving DecidableEq

/-- `_parse_bluesky_document_path`: run the regex; on failure raise, on
success trim the `doc` group to its first `/`-separated component and
split the `all_keys` group into a tuple of traversal keys. -/
def parseBlueskyDocumentPath (s : String) : Except String PathInfo :=
  match matchBlueskyChars s.data with
  | none => .error ("failed to parse '" ++ s ++ "'")
  | some m =>
      let doc :=
        if (stripPrefixChars "desc".data m.doc.data).isSome then
          (splitOnSlash m.doc).headD ""
        else m.doc
      let keys := (splitOnSlash m.allKeys).drop 1
      .ok ⟨doc, m.stream, keys, m.attr⟩

/-! ## The reference resolver -/

/-- The absolute destination path a descriptor resolves to: the `doc`
sub-group under the fixed top-level `bluesky` group, then each traversal
key in order.  The `stream` field is not consulted (`_get_h5_group_or_dataset`). -/
def blueskyTargetPath (p : PathInfo) : List String :=
  "bluesky" :: p.doc :: p.keys

/-- `_get_h5_group_or_dataset`: sequential child lookups
`h5_file["bluesky"][doc][k1][k2]...`; a missing segment raises `KeyError`. -/
def getH5GroupOrDataset (p : PathInfo) (h5File : H5Node) : Except String H5Node :=
  match getAtPath h5File (blueskyTargetPath p) with
  | some n => .ok n
  | none => .error "KeyError"

/-- Spec-side reference definition, following the spec's words (§6):
does the whole string match
`#bluesky/<kind>[/<stream>](/<segment>)*[@<attr>]` exactly, with
nothing left over?  Shares the grammar components with the embedded
regex; the one difference under scrutiny is the final emptiness check,
which the code's `re.match` does not perform. -/
def specGrammarExact (s : String) : Bool :=
  match stripPrefixChars "#bluesky/".data s.data with
  | none => false
  | some r0 =>
      match matchDoc r0 with
      | none => false
      | some (_, _, r1) =>
          let (_, r2) := keysLoopF r1.length r1
          let (_, r3) := matchAttr r2
          r3.isEmpty

/-- Spec-side: does some leading portion of the string match the grammar
exactly?  `re.match` succeeds on exactly these strings, so a string on
which this is false has no grammar-matching prefix and must fail to
parse. -/
def anyPrefixMatches (s : String) : Bool :=
  (List.range (s.data.length + 1)).any fun n =>
    specGrammarExact (String.mk (s.data.take n))

/-- The association list an `MdMap` denotes, in order. -/
def MdMap.toListA : MdMap → List (String × MdValue)
  | .nil => []
  | .cons k v es => (k, v) :: MdMap.toListA es

/-- A nonempty string of regex word characters. -/
def isWordStr (s : String) : Bool := !s.data.isEmpty && s.data.all isWordChar

/-! ## What the HDF5 layer accepts natively

Modelled from h5py/numpy behaviour, which the Python code leans on:
a value is accepted as an attribute value or as `create_dataset` data
exactly when NumPy can pack it into a homogeneous non-object array:
a string, an integer, a boolean, a bytes object, or a flat list all of
whose elements are primitives of one and the same kind.  `None`, dicts,
nested or mixed lists are refused with `TypeError`. -/

/-- Is the value a Python `str`? -/
def isStrV : MdValue → Bool
  | .str _ => true
  | _ => false

/-- Is the value a Python `int`? -/
def isIntV : MdValue → Bool
  | .int _ => true
  | _ => false

/-- Is the value a Python `bool`? -/
def isBoolV : MdValue → Bool
  | .bool _ => true
  | _ => false

/-- Does every element of the array satisfy the predicate? -/
def arrAll (p : MdValue → Bool) : MdArr → Bool
  | .nil => true
  | .cons v vs => p v && arrAll p vs

/-- Modelled from h5py/numpy: the values accepted natively as attribute
values and as `create_dataset` data (see the section comment). -/
def h5NativeOk : MdValue → Bool
  | .str _ => true
  | .int _ => true
  | .bool _ => true
  | .bytes _ => true
  | .null => false
  | .map _ => false
  | .arr vs => arrAll isStrV vs || arrAll isIntV vs || arrAll isBoolV vs

/-- Is the value a Python mapping? -/
def isMapV : MdValue → Bool
  | .map _ => true
  | _ => false

/-- Every attribute value in the map is accepted natively. -/
def attrsAllNativeOk : MdMap → Bool
  | .nil => true
  | .cons _ v es => h5NativeOk v && attrsAllNativeOk es

/-- The Dataset Copier's string test: `isinstance(value, str)`, or
`isinstance(value, Sequence)` with every element a `str`.  A Python
list of strings passes; iterating `bytes` yields ints, so only the
empty bytes passes the second disjunct vacuously. -/
def strBranchTest : MdValue → Bool
  | .str _ => true
  | .arr vs => arrAll isStrV vs
  | .bytes bs => bs.isEmpty
  | _ => false

/-! ## The JSON model

Modelled from Python's `json.dumps` / `json.loads`, which the two
copiers use as their fallback encoding.  `jsonDumpsV` follows `dumps`
with its default separators; its escaping choices are simplified in
surface form only (a uniform `\u00XX` escape for control characters,
non-ASCII characters written literally rather than escaped) — the
decoder agrees with `loads` on everything the encoder emits.
`parseJsonV` is a fuel-driven recursive-descent parser for the
canonical texts the encoder produces. -/

/-- One decimal/hex digit character for a value below 16. -/
def hexDigitChar : Nat → Char
  | 0 => '0' | 1 => '1' | 2 => '2' | 3 => '3' | 4 => '4'
  | 5 => '5' | 6 => '6' | 7 => '7' | 8 => '8' | 9 => '9'
  | 10 => 'a' | 11 => 'b' | 12 => 'c' | 13 => 'd' | 14 => 'e' | 15 => 'f'
  | _ => '0'

/-- A decimal digit character. -/
def digitChar10 : Nat → Char
  | 0 => '0' | 1 => '1' | 2 => '2' | 3 => '3' | 4 => '4'
  | 5 => '5' | 6 => '6' | 7 => '7' | 8 => '8' | 9 => '9'
  | _ => '0'

/-- The decimal digits of a positive number, least significant first;
fuel-driven (fuel at least the number itself always suffices). -/
def natCharsAux : Nat → Nat → List Char
  | 0, _ => []
  | fuel + 1, n => if n = 0 then [] else digitChar10 (n % 10) :: natCharsAux fuel (n / 10)

/-- The decimal digits of a natural number, most significant first. -/
def natChars (n : Nat) : List Char :=
  if n = 0 then ['0'] else (natCharsAux n n).reverse

/-- The text of a Python `int` (`repr`): an optional minus sign and digits. -/
def intChars (n : Int) : List Char :=
  if n < 0 then '-' :: natChars n.natAbs else natChars n.toNat

/-- JSON string-body escaping (see the section comment). -/
def escapeJsonChar (c : Char) : List Char :=
  if c = '"' then ['\\', '"']
  else if c = '\\' then ['\\', '\\']
  else if c.toNat < 32 then
    ['\\', 'u', '0', '0', hexDigitChar (c.toNat / 16), hexDigitChar (c.toNat % 16)]
  else [c]

/-- Escape every character of a string body. -/
def escapeJsonString : List Char → List Char
  | [] => []
  | c :: cs => escapeJsonChar c ++ escapeJsonString cs

mutual

/-- Modelled from Python's `json.dumps` (see the section comment).
`bytes` is not serializable — `dumps` raises `TypeError` on it — so the
`bytes` case is unreachable behind the `jsonSerializable` guard. -/
def jsonDumpsV : MdValue → List Char
  | .null => "null".data
  | .bool true => "true".data
  | .bool false => "false".data
  | .int n => intChars n
  | .str s => '"' :: (escapeJsonString s.data ++ ['"'])
  | .bytes _ => []
  | .arr vs => '[' :: (jsonDumpsArr vs ++ [']'])
  | .map es => '\x7b' :: (jsonDumpsMap es ++ ['\x7d'])

/-- Array items joined by the default separator. -/
def jsonDumpsArr : MdArr → List Char
  | .nil => []
  | .cons v .nil => jsonDumpsV v
  | .cons v vs => jsonDumpsV v ++ (',' :: ' ' :: jsonDumpsArr vs)

/-- Object members joined by the default separators. -/
def jsonDumpsMap : MdMap → List Char
  | .nil => []
  | .cons k v .nil =>
      '"' :: (escapeJsonString k.data ++ ('"' :: ':' :: ' ' :: jsonDumpsV v))
  | .cons k v es =>
      '"' :: (escapeJsonString k.data ++ ('"' :: ':' :: ' ' :: (jsonDumpsV v ++ (',' :: ' ' :: jsonDumpsMap es))))

end

/-- `json.dumps` as a string-valued function. -/
def jsonDumps (v : MdValue) : String := String.mk (jsonDumpsV v)

mutual

/-- Is the value JSON-serializable (`json.dumps` succeeds)?  Everything
in the model except `bytes`, at any depth. -/
def jsonSerializable : MdValue → Bool
  | .null => true
  | .bool _ => true
  | .int _ => true
  | .str _ => true
  | .bytes _ => false
  | .arr vs => jsonSerializableArr vs
  | .map es => jsonSerializableMap es

/-- `jsonSerializable` over array elements. -/
def jsonSerializableArr : MdArr → Bool
  | .nil => true
  | .cons v vs => jsonSerializable v && jsonSerializableArr vs

/-- `jsonSerializable` over object values. -/
def jsonSerializableMap : MdMap → Bool
  | .nil => true
  | .cons _ v es => jsonSerializable v && jsonSerializableMap es

end

/-- An ASCII decimal digit. -/
def isAsciiDigit (c : Char) : Bool := 48 ≤ c.toNat && c.toNat ≤ 57

/-- The numeric value of a run of decimal digit characters. -/
def digitsVal (ds : List Char) : Nat :=
  ds.foldl (fun acc c => 10 * acc + (c.toNat - 48)) 0

/-- The numeric value of one hex digit character, upper or lower case. -/
def hexVal (c : Char) : Option Nat :=
  if 48 ≤ c.toNat ∧ c.toNat ≤ 57 then some (c.toNat - 48)
  else if 97 ≤ c.toNat ∧ c.toNat ≤ 102 then some (c.toNat - 87)
  else if 65 ≤ c.toNat ∧ c.toNat ≤ 70 then some (c.toNat - 55)
  else none

mutual

/-- Parse the body of a JSON string literal, after the opening quote,
up to and over the closing quote. -/
def parseJsonStringBody : List Char → Option (List Char × List Char)
  | [] => none
  | c :: cs =>
      if c = '"' then some ([], cs)
      else if c = '\\' then parseJsonEscapeBody cs
      else (parseJsonStringBody cs).map fun (b, r) => (c :: b, r)

/-- Parse what follows a backslash inside a JSON string literal. -/
def parseJsonEscapeBody : List Char → Option (List Char × List Char)
  | '"' :: rest => (parseJsonStringBody rest).map fun (b, r) => ('"' :: b, r)
  | '\\' :: rest => (parseJsonStringBody rest).map fun (b, r) => ('\\' :: b, r)
  | 'u' :: h1 :: h2 :: h3 :: h4 :: rest =>
      match hexVal h1, hexVal h2, hexVal h3, hexVal h4 with
      | some a, some b, some x, some y =>
          (parseJsonStringBody rest).map fun (bd, r) =>
            (Char.ofNat (((a * 16 + b) * 16 + x) * 16 + y) :: bd, r)
      | _, _, _, _ => none
  | _ => none

end

/-- Parse a JSON integer: an optional minus sign and a run of digits. -/
def parseJsonNumber (cs : List Char) : Option (Int × List Char) :=
  match cs with
  | [] => none
  | c :: rest =>
      if c = '-' then
        let (ds, r) := takeWhileP isAsciiDigit rest
        if ds.isEmpty then none else some (-(digitsVal ds : Int), r)
      else
        let (ds, r) := takeWhileP isAsciiDigit (c :: rest)
        if ds.isEmpty then none else some ((digitsVal ds : Int), r)

mutual

/-- Fuel-driven recursive-descent parse of one JSON value. -/
def parseJsonV : Nat → List Char → Option (MdValue × List Char)
  | 0, _ => none
  | fuel + 1, cs =>
      match stripPrefixChars "null".data cs with
      | some rest => some (.null, rest)
      | none =>
      match stripPrefixChars "true".data cs with
      | some rest => some (.bool true, rest)
      | none =>
      match stripPrefixChars "false".data cs with
      | some rest => some (.bool false, rest)
      | none =>
      match cs with
      | [] => none
      | c :: rest =>
          if c = '"' then
            match parseJsonStringBody rest with
            | some (body, r) => some (.str (String.mk body), r)
            | none => none
          else if c = '[' then
            match parseJsonArrItems fuel rest with
            | some (vs, r) => some (.arr vs, r)
            | none => none
          else if c = '\x7b' then
            match parseJsonMapItems fuel rest with
            | some (es, r) => some (.map es, r)
            | none => none
          else (parseJsonNumber (c :: rest)).map fun (n, r) => (.int n, r)

/-- Parse array items after the opening bracket, over the closing bracket. -/
def parseJsonArrItems : Nat → List Char → Option (MdArr × List Char)
  | 0, _ => none
  | fuel + 1, cs =>
      match parseJsonV fuel cs with
      | some (v, r) => parseJsonArrSep fuel v r
      | none =>
          match cs with
          | [] => none
          | c :: rest => if c = ']' then some (.nil, rest) else none

/-- After one array item: a closing bracket ends the array, the
separator `", "` continues it. -/
def parseJsonArrSep : Nat → MdValue → List Char → Option (MdArr × List Char)
  | 0, _, _ => none
  | fuel + 1, v, r =>
      match r with
      | [] => none
      | c :: r2 =>
          if c = ']' then some (.cons v .nil, r2)
          else if c = ',' then
            match r2 with
            | [] => none
            | c2 :: r3 =>
                if c2 = ' ' then
                  match parseJsonArrItems fuel r3 with
                  | some (vs, r4) => some (.cons v vs, r4)
                  | none => none
                else none
          else none

/-- Parse object members after the opening brace, over the closing brace. -/
def parseJsonMapItems : Nat → List Char → Option (MdMap × List Char)
  | 0, _ => none
  | fuel + 1, cs =>
      match cs with
      | [] => none
      | c :: rest =>
          if c = '\x7d' then some (.nil, rest)
          else if c = '"' then
            match parseJsonStringBody rest with
            | none => none
            | some (kbody, r) => parseJsonMapColon fuel (String.mk kbody) r
          else none

/-- After an object key: expect `": "` and then the member's value. -/
def parseJsonMapColon : Nat → String → List Char → Option (MdMap × List Char)
  | 0, _, _ => none
  | fuel + 1, k, r =>
      match r with
      | c :: c2 :: r2 =>
          if c = ':' ∧ c2 = ' ' then
            match parseJsonV fuel r2 with
            | none => none
            | some (v, r3) => parseJsonMapSep fuel k v r3
          else none
      | _ => none

/-- After one object member: a closing brace ends the object, the
separator `", "` continues it. -/
def parseJsonMapSep : Nat → String → MdValue → List Char → Option (MdMap × List Char)
  | 0, _, _, _ => none
  | fuel + 1, k, v, r =>
      match r with
      | [] => none
      | c :: r2 =>
          if c = '\x7d' then some (.cons k v .nil, r2)
          else if c = ',' then
            match r2 with
            | [] => none
            | c2 :: r3 =>
                if c2 = ' ' then
                  match parseJsonMapItems fuel r3 with
                  | some (es, r4) => some (.cons k v es, r4)
                  | none => none
                else none
          else none

end

mutual

/-- Fuel sufficient for `parseJsonV` on the canonical text of a value. -/
def jsonFuelV : MdValue → Nat
  | .arr vs => jsonFuelArr vs + 1
  | .map es => jsonFuelMap es + 1
  | _ => 1

/-- Fuel sufficient for `parseJsonArrItems` on canonical array items. -/
def jsonFuelArr : MdArr → Nat
  | .nil => 1
  | .cons v vs => jsonFuelV v + jsonFuelArr vs + 2

/-- Fuel sufficient for `parseJsonMapItems` on canonical object members. -/
def jsonFuelMap : MdMap → Nat
  | .nil => 1
  | .cons _ v es => jsonFuelV v + jsonFuelMap es + 3

end

/-- `json.loads`: parse one value and require the input to be consumed.
The fuel `2 * length + 2` always suffices for texts `jsonDumpsV` emits. -/
def jsonLoads (s : String) : Option MdValue :=
  match parseJsonV (2 * s.data.length + 2) s.data with
  | some (v, []) => some v
  | _ => none

/-! ## The tree interpreter `_copy_nexus_md_to_nexus_h5`

The Python function mutates one node of an open file; link targets are
resolved against the whole file (`h5_group_or_dataset.file`), and after
creating a hard link the recursion continues on the linked object
itself.  The embedding therefore threads the whole file tree `root` and
addresses the current node by its absolute `path`; recursion after a
link continues at the link's target path, which is exactly h5py's
hard-link aliasing. -/

/-- `h5_group_or_dataset.attrs[name] = value`: `TypeError` when the
HDF5 layer refuses the value. -/
def setAttrNode (name : String) (v : MdValue) : H5Node → Except String H5Node
  | .group attrs cs =>
      if h5NativeOk v then .ok (.group (setA attrs name v) cs) else .error "TypeError"
  | .dataset attrs d =>
      if h5NativeOk v then .ok (.dataset (setA attrs name v) d) else .error "TypeError"
  | .link _ => .error "TypeError"

/-- The `_attributes` rule of the tree interpreter: set every listed
attribute, in order, on the node at `path`; no fallback, the first
refused value propagates. -/
def setAttrsAt : MdMap → List String → H5Node → Except String H5Node
  | .nil, _, root => .ok root
  | .cons name v rest, path, root =>
      match modifyAtPath root path (setAttrNode name v) with
      | .error e => .error e
      | .ok root' => setAttrsAt rest path root'

/-- `create_dataset(name=k, data=v)` on the node at `path`: fails if the
name already exists or the HDF5 layer refuses the data. -/
def createDatasetAt (root : H5Node) (path : List String) (k : String) (v : MdValue) :
    Except String H5Node :=
  modifyAtPath root path fun n =>
    match n with
    | .group attrs cs =>
        if (findA cs k).isSome then .error "name already exists"
        else if h5NativeOk v then .ok (.group attrs (cs ++ [(k, .dataset [] v)]))
        else .error "TypeError"
    | _ => .error "not a group"

/-- `create_group(k)` on the node at `path`: fails if the name exists. -/
def createGroupAt (root : H5Node) (path : List String) (k : String) :
    Except String H5Node :=
  modifyAtPath root path fun n =>
    match n with
    | .group attrs cs =>
        if (findA cs k).isSome then .error "name already exists"
        else .ok (.group attrs (cs ++ [(k, .group [] [])]))
    | _ => .error "not a group"

/-- `h5_group[k] = resolved_object`: record a hard link to `target`. -/
def insertLinkAt (root : H5Node) (path : List String) (k : String)
    (target : List String) : Except String H5Node :=
  modifyAtPath root path fun n =>
    match n with
    | .group attrs cs =>
        if (findA cs k).isSome then .error "name already exists"
        else .ok (.group attrs (cs ++ [(k, .link target)]))
    | _ => .error "not a group"

/-- Does the string start with the `#bluesky` sentinel? -/
def startsWithBluesky (s : String) : Bool :=
  (stripPrefixChars "#bluesky".data s.data).isSome

/-- `_copy_nexus_md_to_nexus_h5 nexus_md h5_group_or_dataset`, the Tree
Interpreter: walk the metadata mapping in order and populate the node at
`path` inside `root`; see the section comment for the state threading. -/
def copyNexusMdToNexusH5 : MdMap → List String → H5Node → Except String H5Node
  | .nil, _, root => .ok root
  | .cons k v rest, path, root =>
      if k = "_data" ∨ k = "_link" then
        -- already processed by the branch that created the current node
        copyNexusMdToNexusH5 rest path root
      else if k = "_attributes" then
        match v with
        | .map attrsM =>
            match setAttrsAt attrsM path root with
            | .error e => .error e
            | .ok root1 => copyNexusMdToNexusH5 rest path root1
        | _ => .error "AttributeError"
      else
        match v with
        | .map entries =>
            match entries.find "_link" with
            | some (.str s) =>
                match parseBlueskyDocumentPath s with
                | .error e => .error e
                | .ok p =>
                    match getH5GroupOrDataset p root with
                    | .error e => .error e
                    | .ok _ =>
                        match insertLinkAt root path k (blueskyTargetPath p) with
                        | .error e => .error e
                        | .ok root1 =>
                            match copyNexusMdToNexusH5 entries (blueskyTargetPath p) root1 with
                            | .error e => .error e
                            | .ok root2 => copyNexusMdToNexusH5 rest path root2
            | some _ => .error "TypeError"
            | none =>
                match entries.find "_data" with
                | some d =>
                    match createDatasetAt root path k d with
                    | .error e => .error e
                    | .ok root1 =>
                        match copyNexusMdToNexusH5 entries (path ++ [k]) root1 with
                        | .error e => .error e
                        | .ok root2 => copyNexusMdToNexusH5 rest path root2
                | none =>
                    match createGroupAt root path k with
                    | .error e => .error e
                    | .ok root1 =>
                        match copyNexusMdToNexusH5 entries (path ++ [k]) root1 with
                        | .error e => .error e
                        | .ok root2 => copyNexusMdToNexusH5 rest path root2
        | .str s =>
            if startsWithBluesky s then
              match parseBlueskyDocumentPath s with
              | .error e => .error e
              | .ok p =>
                  match getH5GroupOrDataset p root with
                  | .error e => .error e
                  | .ok _ =>
                      match insertLinkAt root path k (blueskyTargetPath p) with
                      | .error e => .error e
                      | .ok root1 => copyNexusMdToNexusH5 rest path root1
            else
              match createDatasetAt root path k (.str s) with
              | .error e => .error e
              | .ok root1 => copyNexusMdToNexusH5 rest path root1
        | _ =>
            match createDatasetAt root path k v with
            | .error e => .error e
            | .ok root1 => copyNexusMdToNexusH5 rest path root1

/-! ## The two flat-mapping copiers -/

/-- `_copy_metadata_to_h5_attrs`: recursively reproduce a flat mapping
as nested groups carrying attributes; `None` becomes the string
`"None"`, and a value the HDF5 layer refuses as an attribute is stored
as its JSON text instead (the `except TypeError` fallback). -/
def copyMetadataToH5Attrs : MdMap → H5Node → Except String H5Node
  | .nil, g => .ok g
  | .cons k v rest, g =>
      match v with
      | .map m' =>
          match g with
          | .group attrs cs =>
              if (findA cs k).isSome then .error "name already exists"
              else
                match copyMetadataToH5Attrs m' (.group [] []) with
                | .error e => .error e
                | .ok sub => copyMetadataToH5Attrs rest (.group attrs (cs ++ [(k, sub)]))
          | _ => .error "not a group"
      | _ =>
          let v1 := match v with | .null => MdValue.str "None" | _ => v
          match g with
          | .group attrs cs =>
              if h5NativeOk v1 then
                copyMetadataToH5Attrs rest (.group (setA attrs k v1) cs)
              else if jsonSerializable v1 then
                -- json.dumps fallback; dumps itself raises on non-serializable values
                copyMetadataToH5Attrs rest (.group (setA attrs k (.str (jsonDumps v1))) cs)
              else .error "TypeError"
          | _ => .error "not a group"

/-- `_copy_metadata_to_h5_datasets`: recursively reproduce a flat
mapping as nested groups carrying datasets.  `None` becomes `"None"`, a
value equal to the single NUL byte becomes the empty string, a string
or sequence of strings is stored as a variable-length-string dataset,
any other natively accepted value is stored as-is, and a refused value
is stored as its JSON text (the `except TypeError` fallback); any other
exception propagates. -/
def copyMetadataToH5Datasets : MdMap → H5Node → Except String H5Node
  | .nil, g => .ok g
  | .cons k v rest, g =>
      match v with
      | .map m' =>
          match g with
          | .group attrs cs =>
              if (findA cs k).isSome then .error "name already exists"
              else
                match copyMetadataToH5Datasets m' (.group [] []) with
                | .error e => .error e
                | .ok sub => copyMetadataToH5Datasets rest (.group attrs (cs ++ [(k, sub)]))
          | _ => .error "not a group"
      | _ =>
          let v1 : MdValue :=
            match v with
            | .null => .str "None"
            | .bytes bs => if bs = [0] then .str "" else .bytes bs
            | _ => v
          match g with
          | .group attrs cs =>
              if (findA cs k).isSome then
                -- create_dataset on an existing name raises, and that
                -- exception class is not TypeError: logged and re-raised
                .error "name already exists"
              else if strBranchTest v1 then
                copyMetadataToH5Datasets rest (.group attrs (cs ++ [(k, .dataset [] v1)]))
              else if h5NativeOk v1 then
                copyMetadataToH5Datasets rest (.group attrs (cs ++ [(k, .dataset [] v1)]))
              else if jsonSerializable v1 then
                copyMetadataToH5Datasets rest
                  (.group attrs (cs ++ [(k, .dataset [] (.str (jsonDumps v1)))]))
              else .error "TypeError"
          | _ => .error "not a group"

/-! ## Concrete instances used by the claims -/

/-- A destination file carrying both `/bluesky/desc/k1` (data `"B"`)
and `/bluesky/desc/primary/k1` (data `"A"`), to separate the two
candidate readings of `#bluesky/desc/primary/k1`. -/
def rootC1 : H5Node :=
  .group [] [("bluesky", .group []
    [("desc", .group []
      [("k1", .dataset [] (.str "B")),
       ("primary", .group [] [("k1", .dataset [] (.str "A"))])])])]

/-- The metadata tree of the end-to-end example:
`entry` with an `NX_Class` attribute and a `title` reference string. -/
def nexusMdC3 : MdMap :=
  .ofList [("entry", .map (.ofList
    [("_attributes", .map (.ofList [("NX_Class", .str "NXEntry")])),
     ("title", .str "#bluesky/start/sample_name")]))]

/-- The destination file of the end-to-end example, with
`/bluesky/start/sample_name` already holding `"Sample A"`. -/
def rootC3 : H5Node :=
  .group [] [("bluesky", .group [] [("start", .group []
    [("sample_name", .dataset [] (.str "Sample A"))])])]

/-- The destination file after interpreting `nexusMdC3` over `rootC3`. -/
def resultC3 : H5Node :=
  .group [] [("bluesky", .group [] [("start", .group []
    [("sample_name", .dataset [] (.str "Sample A"))])]),
    ("entry", .group [("NX_Class", .str "NXEntry")]
      [("title", .link ["bluesky", "start", "sample_name"])])]

/-- The documented value h5py refuses as an attribute:
`[[['time'], 'primary']]` from the source comment. -/
def raggedDimensionsValue : MdValue :=
  .arr (.ofList [.arr (.ofList [.arr (.ofList [.str "time"]), .str "primary"])])

/-! ## Helper lemmas -/

theorem mk_data (s : String) : String.mk s.data = s := rfl

theorem stripPrefixChars_append (p r : List Char) :
    stripPrefixChars p (p ++ r) = some r := by
  induction p with
  | nil => rfl
  | cons c cs ih => simpa [stripPrefixChars] using ih

theorem takeWhileP_append (p : Char → Bool) (l r : List Char)
    (hl : l.all p = true) (hr : ∀ c, r.head? = some c → p c = false) :
    takeWhileP p (l ++ r) = (l, r) := by
  induction l with
  | nil =>
      cases r with
      | nil => rfl
      | cons c cs => simp [takeWhileP, hr c rfl]
  | cons c cs ih =>
      simp only [List.all_cons, Bool.and_eq_true] at hl
      simp [takeWhileP, hl.1, ih hl.2]

theorem keysLoopF_join (ks : List String) (fuel : Nat)
    (hw : ∀ k ∈ ks, isWordStr k = true) (hf : (joinSlash ks).length ≤ fuel) :
    keysLoopF fuel (joinSlash ks) = (ks, []) := by
  induction ks generalizing fuel with
  | nil =>
      cases fuel with
      | zero => rfl
      | succ f => rfl
  | cons k ks ih =>
      have hk := hw k (by simp)
      have hks : ∀ x ∈ ks, isWordStr x = true := fun x hx => hw x (by simp [hx])
      simp only [isWordStr, Bool.and_eq_true, Bool.not_eq_true'] at hk
      cases fuel with
      | zero =>
          exfalso
          simp [joinSlash] at hf
      | succ f =>
          have hword : takeWord (k.data ++ joinSlash ks) = (k.data, joinSlash ks) := by
            apply takeWhileP_append
            · exact hk.2
            · intro c hc
              cases ks with
              | nil => simp [joinSlash] at hc
              | cons k2 ks2 =>
                  simp [joinSlash] at hc
                  rw [← hc]
                  decide
          have hne : k.data.isEmpty = false := hk.1
          have hlen : (joinSlash ks).length ≤ f := by
            simp only [joinSlash, List.length_cons, List.length_append] at hf
            omega
          simp [joinSlash, keysLoopF, hword, hne, ih f hks hlen, mk_data]

theorem splitOnSlashAux_join (ks : List String) (acc : List Char)
    (hw : ∀ k ∈ ks, isWordStr k = true) :
    splitOnSlashAux (joinSlash ks) acc = String.mk acc.reverse :: ks := by
  induction ks generalizing acc with
  | nil => rfl
  | cons k ks ih =>
      have hk := hw k (by simp)
      have hks : ∀ x ∈ ks, isWordStr x = true := fun x hx => hw x (by simp [hx])
      have inner : ∀ l acc2, l.all isWordChar = true →
          splitOnSlashAux (l ++ joinSlash ks) acc2 =
            String.mk (acc2.reverse ++ l) :: ks := by
        intro l
        induction l with
        | nil => intro acc2 _; simpa using ih acc2 hks
        | cons c l2 ihl =>
            intro acc2 hall
            simp only [List.all_cons, Bool.and_eq_true] at hall
            have hcslash : ¬(c = '/') := by
              intro hcs
              rw [hcs] at hall
              exact absurd hall.1 (by decide)
            simp [splitOnSlashAux, hcslash, ihl (c :: acc2) hall.2]
      have hkword : k.data.all isWordChar = true := by
        have := hk
        simp only [isWordStr, Bool.and_eq_true] at this
        exact this.2
      simp [joinSlash, splitOnSlashAux, inner k.data [] hkword, mk_data]

theorem strip_start_d (cs : List Char) :
    stripPrefixChars "start".data ('d' :: cs) = none := rfl

theorem strip_stop_d (cs : List Char) :
    stripPrefixChars "stop".data ('d' :: cs) = none := rfl

theorem strip_desc_d (cs : List Char) :
    stripPrefixChars "desc/".data ('d' :: 'e' :: 's' :: 'c' :: '/' :: cs) = some cs := rfl

theorem strip_desc4 (cs : List Char) :
    stripPrefixChars "desc".data ('d' :: 'e' :: 's' :: 'c' :: cs) = some cs := rfl

theorem splitAux_desc (cs : List Char) :
    splitOnSlashAux ('d' :: 'e' :: 's' :: 'c' :: '/' :: cs) [] =
      "desc" :: splitOnSlashAux cs [] := rfl

theorem parse_desc (stream : String) (ks : List String)
    (hs : isWordStr stream = true) (hks : ∀ k ∈ ks, isWordStr k = true) :
    parseBlueskyDocumentPath
        (String.mk ("#bluesky/".data ++
          ('d' :: 'e' :: 's' :: 'c' :: '/' :: (stream.data ++ joinSlash ks)))) =
      .ok ⟨"desc", some stream, ks, none⟩ := by
  have hs2 : stream.data.isEmpty = false ∧ stream.data.all isWordChar = true := by
    simpa [isWordStr, Bool.not_eq_true'] using hs
  have hword : takeWord (stream.data ++ joinSlash ks) = (stream.data, joinSlash ks) := by
    apply takeWhileP_append _ _ _ hs2.2
    intro c hc
    cases ks with
    | nil => simp [joinSlash] at hc
    | cons a b =>
        simp [joinSlash] at hc
        rw [← hc]
        decide
  have hdoc : matchDoc ('d' :: 'e' :: 's' :: 'c' :: '/' :: (stream.data ++ joinSlash ks)) =
      some ("desc/" ++ stream, some stream, joinSlash ks) := by
    simp only [takeWord] at hword
    simp [matchDoc, takeWord, stripPrefixChars, hword, hs2.1, mk_data]
  simp only [parseBlueskyDocumentPath, matchBlueskyChars]
  rw [stripPrefixChars_append]
  simp [hdoc, keysLoopF_join ks (joinSlash ks).length hks (le_refl _), matchAttr,
    String.data_append, splitOnSlash, splitAux_desc,
    splitOnSlashAux_join ks [] hks, mk_data, stripPrefixChars]

theorem data_mk (l : List Char) : (String.mk l).data = l := rfl

theorem stripPrefixChars_inv : ∀ (p s r : List Char),
    stripPrefixChars p s = some r → s = p ++ r := by
  intro p
  induction p with
  | nil =>
      intro s r h
      have h2 : s = r := by simpa [stripPrefixChars] using h
      simp [h2]
  | cons c cs ih =>
      intro s r h
      cases s with
      | nil => simp [stripPrefixChars] at h
      | cons c2 s2 =>
          by_cases hc : c2 = c
          · simp only [stripPrefixChars, hc, if_true] at h
            simp [hc, ih s2 r h]
          · simp [stripPrefixChars, hc] at h

theorem takeWhileP_inv (p : Char → Bool) : ∀ (cs w r : List Char),
    takeWhileP p cs = (w, r) → cs = w ++ r ∧ w.all p = true := by
  intro cs
  induction cs with
  | nil =>
      intro w r h
      simp only [takeWhileP] at h
      injection h with h1 h2
      subst h1
      subst h2
      exact ⟨rfl, rfl⟩
  | cons c cs2 ih =>
      intro w r h
      by_cases hpc : p c = true
      · cases htw : takeWhileP p cs2 with
        | mk w2 r2 =>
            simp only [takeWhileP, hpc, if_true, htw] at h
            injection h with h1 h2
            subst h1
            subst h2
            obtain ⟨hcs, hall⟩ := ih w2 r2 htw
            exact ⟨by simp [hcs], by simp [hpc, hall]⟩
      · simp only [takeWhileP, hpc] at h
        rw [if_neg (by simp [hpc])] at h
        injection h with h1 h2
        subst h1
        subst h2
        exact ⟨rfl, rfl⟩

theorem keysLoopF_inv : ∀ (fuel : Nat) (cs : List Char) (ks : List String)
    (r : List Char), keysLoopF fuel cs = (ks, r) →
    cs = joinSlash ks ++ r ∧ ∀ k ∈ ks, isWordStr k = true := by
  intro fuel
  induction fuel with
  | zero =>
      intro cs ks r h
      simp only [keysLoopF] at h
      injection h with h1 h2
      subst h1
      subst h2
      exact ⟨by simp [joinSlash], by simp⟩
  | succ f ih =>
      intro cs ks r h
      cases cs with
      | nil =>
          simp only [keysLoopF] at h
          injection h with h1 h2
          subst h1
          subst h2
          exact ⟨by simp [joinSlash], by simp⟩
      | cons c rest =>
          by_cases hc : c = '/'
          · subst hc
            cases htw : takeWord rest with
            | mk w r1 =>
                by_cases hemp : w.isEmpty
                · simp only [keysLoopF, if_pos rfl, htw, hemp, if_true] at h
                  injection h with h1 h2
                  subst h1
                  subst h2
                  exact ⟨by simp [joinSlash], by simp⟩
                · cases hkl : keysLoopF f r1 with
                  | mk ks2 r2 =>
                      simp only [keysLoopF, if_pos rfl, htw, hemp,
                        Bool.false_eq_true, if_false, hkl] at h
                      injection h with h1 h2
                      subst h1
                      subst h2
                      obtain ⟨hr1, hall⟩ := takeWhileP_inv isWordChar rest w r1 htw
                      obtain ⟨hr2, hks2⟩ := ih r1 ks2 r2 hkl
                      constructor
                      · simp [joinSlash, data_mk, hr1, hr2]
                      · intro k hk
                        simp only [List.mem_cons] at hk
                        rcases hk with hk | hk
                        · subst hk
                          have hemp2 : w.isEmpty = false := by
                            cases hb : w.isEmpty with
                            | false => rfl
                            | true => exact absurd hb hemp
                          simp [isWordStr, data_mk, hall, hemp2]
                        · exact hks2 k hk
          · simp only [keysLoopF, if_neg hc] at h
            injection h with h1 h2
            subst h1
            subst h2
            exact ⟨by simp [joinSlash], by simp⟩

theorem matchAttr_inv (cs : List Char) (oa : Option String) (r : List Char)
    (h : matchAttr cs = (oa, r)) :
    oa = none ∨
      ∃ a, oa = some a ∧ isWordStr a = true ∧ cs = '@' :: (a.data ++ r) := by
  cases cs with
  | nil =>
      simp only [matchAttr] at h
      injection h with h1 _
      exact Or.inl h1.symm
  | cons c rest =>
      by_cases hc : c = '@'
      · subst hc
        cases htw : takeWord rest with
        | mk w r1 =>
            by_cases hemp : w.isEmpty
            · simp only [matchAttr, if_pos rfl, htw, hemp, if_true] at h
              injection h with h1 _
              exact Or.inl h1.symm
            · simp only [matchAttr, if_pos rfl, htw, hemp,
                Bool.false_eq_true, if_false] at h
              injection h with h1 h2
              obtain ⟨hsplit, hall⟩ := takeWhileP_inv isWordChar rest w r1 htw
              refine Or.inr ⟨String.mk w, h1.symm, ?_, ?_⟩
              · have hemp2 : w.isEmpty = false := by
                  cases hb : w.isEmpty with
                  | false => rfl
                  | true => exact absurd hb hemp
                simp [isWordStr, data_mk, hall, hemp2]
              · rw [hsplit, ← h2]
      · simp only [matchAttr, if_neg hc] at h
        injection h with h1 _
        exact Or.inl h1.symm

theorem matchDoc_inv (cs : List Char) (doc : String) (st : Option String)
    (r : List Char) (h : matchDoc cs = some (doc, st, r)) :
    cs = "start".data ++ r ∨ cs = "stop".data ++ r ∨
      ∃ w, w.isEmpty = false ∧ w.all isWordChar = true ∧
        cs = "desc/".data ++ (w ++ r) := by
  unfold matchDoc at h
  cases h1 : stripPrefixChars "start".data cs with
  | some r0 =>
      rw [h1] at h
      injection h with h2
      injection h2 with _ h3
      injection h3 with _ h4
      exact Or.inl ((stripPrefixChars_inv _ _ _ h1).trans (by rw [h4]))
  | none =>
      rw [h1] at h
      cases h2 : stripPrefixChars "stop".data cs with
      | some r0 =>
          rw [h2] at h
          injection h with h3
          injection h3 with _ h4
          injection h4 with _ h5
          exact Or.inr (Or.inl
            ((stripPrefixChars_inv _ _ _ h2).trans (by rw [h5])))
      | none =>
          rw [h2] at h
          cases h3 : stripPrefixChars "desc/".data cs with
          | none => rw [h3] at h; exact absurd h (by simp)
          | some r0 =>
              rw [h3] at h
              cases htw : takeWord r0 with
              | mk w r1 =>
                  by_cases hemp : w.isEmpty
                  · simp [htw, hemp] at h
                  · simp only [htw, hemp, Bool.false_eq_true, if_false] at h
                    injection h with h4
                    injection h4 with _ h5
                    injection h5 with _ h6
                    obtain ⟨hsplit, hall⟩ := takeWhileP_inv isWordChar r0 w r1 htw
                    refine Or.inr (Or.inr ⟨w, ?_, hall, ?_⟩)
                    · cases hb : w.isEmpty with
                      | false => rfl
                      | true => exact absurd hb hemp
                    · rw [stripPrefixChars_inv _ _ _ h3, hsplit, h6]

theorem keysLoopF_join_rest (ks : List String) (rest : List Char) (fuel : Nat)
    (hw : ∀ k ∈ ks, isWordStr k = true)
    (hrest : ∀ c, rest.head? = some c → isWordChar c = false ∧ ¬(c = '/'))
    (hf : (joinSlash ks).length ≤ fuel) :
    keysLoopF fuel (joinSlash ks ++ rest) = (ks, rest) := by
  induction ks generalizing fuel with
  | nil =>
      cases fuel with
      | zero => rfl
      | succ f =>
          cases rest with
          | nil => rfl
          | cons c r2 => simp [keysLoopF, joinSlash, (hrest c rfl).2]
  | cons k ks ih =>
      have hk := hw k (by simp)
      have hks : ∀ x ∈ ks, isWordStr x = true := fun x hx => hw x (by simp [hx])
      simp only [isWordStr, Bool.and_eq_true, Bool.not_eq_true'] at hk
      cases fuel with
      | zero =>
          exfalso
          simp [joinSlash] at hf
      | succ f =>
          have hword : takeWord (k.data ++ (joinSlash ks ++ rest)) =
              (k.data, joinSlash ks ++ rest) := by
            apply takeWhileP_append
            · exact hk.2
            · intro c hc
              cases ks with
              | nil =>
                  simp only [joinSlash, List.nil_append] at hc
                  exact (hrest c hc).1
              | cons k2 ks2 =>
                  simp [joinSlash] at hc
                  rw [← hc]
                  decide
          have hne : k.data.isEmpty = false := hk.1
          have hlen : (joinSlash ks).length ≤ f := by
            simp only [joinSlash, List.length_cons, List.length_append] at hf
            omega
          simp [joinSlash, keysLoopF, hword, hne, ih f hks hlen, mk_data]

theorem matchDoc_start (t : List Char) :
    matchDoc ("start".data ++ t) = some ("start", none, t) := by
  simp [matchDoc, stripPrefixChars]

theorem matchDoc_stop (t : List Char) :
    matchDoc ("stop".data ++ t) = some ("stop", none, t) := by
  simp [matchDoc, stripPrefixChars]

theorem matchDoc_desc (w t : List Char) (hemp : w.isEmpty = false)
    (hall : w.all isWordChar = true)
    (ht : ∀ c, t.head? = some c → isWordChar c = false) :
    matchDoc ("desc/".data ++ (w ++ t)) =
      some ("desc/" ++ String.mk w, some (String.mk w), t) := by
  have hword : takeWhileP isWordChar (w ++ t) = (w, t) :=
    takeWhileP_append _ _ _ hall ht
  simp [matchDoc, stripPrefixChars, takeWord, hword, hemp, mk_data]

theorem matchAttr_word (a : String) (ha : isWordStr a = true) :
    matchAttr ('@' :: a.data) = (some a, []) := by
  have h2 : a.data.isEmpty = false ∧ a.data.all isWordChar = true := by
    simpa [isWordStr, Bool.not_eq_true'] using ha
  have htw : takeWhileP isWordChar (a.data ++ []) = (a.data, []) :=
    takeWhileP_append _ _ _ h2.2 (by intro c hc; simp at hc)
  rw [List.append_nil] at htw
  simp [matchAttr, takeWord, htw, h2.1, mk_data]

theorem specGrammarExact_build (d : List Char) (doc2 : String)
    (st2 : Option String) (ks : List String) (at2 : List Char)
    (oa2 : Option String)
    (hw : ∀ k ∈ ks, isWordStr k = true)
    (hdoc : matchDoc (d ++ (joinSlash ks ++ at2)) =
      some (doc2, st2, joinSlash ks ++ at2))
    (hat : matchAttr at2 = (oa2, []))
    (hrest : ∀ c, at2.head? = some c → isWordChar c = false ∧ ¬(c = '/')) :
    specGrammarExact
      (String.mk ("#bluesky/".data ++ (d ++ (joinSlash ks ++ at2)))) = true := by
  have hkeys : keysLoopF (joinSlash ks ++ at2).length (joinSlash ks ++ at2) =
      (ks, at2) :=
    keysLoopF_join_rest ks at2 _ hw hrest
      (by rw [List.length_append]; omega)
  rw [List.length_append] at hkeys
  simp only [specGrammarExact, data_mk]
  rw [stripPrefixChars_append]
  simp [hdoc, hkeys, hat]

theorem consumed_assemble (s r0 : List Char) (ks : List String)
    (r2 : List Char) (d at2 leftover : List Char) (doc2 : String)
    (st2 : Option String) (oa2 : Option String)
    (hs0 : s = "#bluesky/".data ++ r0)
    (hr0 : r0 = d ++ (joinSlash ks ++ r2))
    (hr2 : r2 = at2 ++ leftover)
    (hw : ∀ k ∈ ks, isWordStr k = true)
    (hdoc : matchDoc (d ++ (joinSlash ks ++ at2)) =
      some (doc2, st2, joinSlash ks ++ at2))
    (hat : matchAttr at2 = (oa2, []))
    (hrest : ∀ c, at2.head? = some c → isWordChar c = false ∧ ¬(c = '/')) :
    ∃ p r, s = p ++ r ∧ specGrammarExact (String.mk p) = true := by
  refine ⟨"#bluesky/".data ++ (d ++ (joinSlash ks ++ at2)), leftover, ?_,
    specGrammarExact_build d doc2 st2 ks at2 oa2 hw hdoc hat hrest⟩
  subst hs0
  subst hr0
  subst hr2
  simp [List.append_assoc]

theorem matchBluesky_consumed (s : List Char) (m : ReMatch)
    (h : matchBlueskyChars s = some m) :
    ∃ p r, s = p ++ r ∧ specGrammarExact (String.mk p) = true := by
  unfold matchBlueskyChars at h
  cases h9 : stripPrefixChars "#bluesky/".data s with
  | none => simp only [h9] at h; exact absurd h (by simp)
  | some r0 =>
      simp only [h9] at h
      cases hd : matchDoc r0 with
      | none => simp only [hd] at h; exact absurd h (by simp)
      | some t =>
          obtain ⟨doc, st, r1⟩ := t
          cases hkl : keysLoopF r1.length r1 with
          | mk ks r2 =>
              cases hma : matchAttr r2 with
              | mk oa r3 =>
                  obtain ⟨hr1eq, hksw⟩ := keysLoopF_inv r1.length r1 ks r2 hkl
                  have hs0 : s = "#bluesky/".data ++ r0 :=
                    stripPrefixChars_inv _ _ _ h9
                  have hnoattr : ∀ c, ([] : List Char).head? = some c →
                      isWordChar c = false ∧ ¬(c = '/') := by
                    intro c hc
                    simp at hc
                  rcases matchDoc_inv r0 doc st r1 hd with
                    hdtxt | hdtxt | ⟨w, hwemp, hwall, hdtxt⟩
                  · rcases matchAttr_inv r2 oa r3 hma with hnone | ⟨a, hoa, haw, hacs⟩
                    · exact consumed_assemble s r0 ks r2 "start".data [] r2
                        "start" none none hs0 (by rw [hdtxt, hr1eq]) rfl hksw
                        (matchDoc_start _) rfl hnoattr
                    · refine consumed_assemble s r0 ks r2 "start".data
                        ('@' :: a.data) r3 "start" none (some a) hs0
                        (by rw [hdtxt, hr1eq]) hacs hksw (matchDoc_start _)
                        (matchAttr_word a haw) ?_
                      intro c hc
                      have hc2 : c = '@' := by simpa using hc.symm
                      subst hc2
                      exact ⟨by decide, by decide⟩
                  · rcases matchAttr_inv r2 oa r3 hma with hnone | ⟨a, hoa, haw, hacs⟩
                    · exact consumed_assemble s r0 ks r2 "stop".data [] r2
                        "stop" none none hs0 (by rw [hdtxt, hr1eq]) rfl hksw
                        (matchDoc_stop _) rfl hnoattr
                    · refine consumed_assemble s r0 ks r2 "stop".data
                        ('@' :: a.data) r3 "stop" none (some a) hs0
                        (by rw [hdtxt, hr1eq]) hacs hksw (matchDoc_stop _)
                        (matchAttr_word a haw) ?_
                      intro c hc
                      have hc2 : c = '@' := by simpa using hc.symm
                      subst hc2
                      exact ⟨by decide, by decide⟩
                  · rcases matchAttr_inv r2 oa r3 hma with hnone | ⟨a, hoa, haw, hacs⟩
                    · refine consumed_assemble s r0 ks r2 ("desc/".data ++ w)
                        [] r2 ("desc/" ++ String.mk w) (some (String.mk w)) none
                        hs0 (by rw [hdtxt, hr1eq]; simp [List.append_assoc])
                        rfl hksw ?_ rfl hnoattr
                      have ht : ∀ c, (joinSlash ks ++ ([] : List Char)).head? =
                          some c → isWordChar c = false := by
                        intro c hc
                        cases ks with
                        | nil => simp [joinSlash] at hc
                        | cons k2 ks2 =>
                            simp [joinSlash] at hc
                            rw [← hc]
                            decide
                      have := matchDoc_desc w (joinSlash ks ++ []) hwemp hwall ht
                      simpa [List.append_assoc] using this
                    · refine consumed_assemble s r0 ks r2 ("desc/".data ++ w)
                        ('@' :: a.data) r3 ("desc/" ++ String.mk w)
                        (some (String.mk w)) (some a) hs0
                        (by rw [hdtxt, hr1eq]; simp [List.append_assoc])
                        hacs hksw ?_ (matchAttr_word a haw) ?_
                      · have ht : ∀ c,
                            (joinSlash ks ++ ('@' :: a.data)).head? = some c →
                            isWordChar c = false := by
                          intro c hc
                          cases ks with
                          | nil =>
                              simp [joinSlash] at hc
                              rw [← hc]
                              decide
                          | cons k2 ks2 =>
                              simp [joinSlash] at hc
                              rw [← hc]
                              decide
                        have := matchDoc_desc w (joinSlash ks ++ ('@' :: a.data))
                          hwemp hwall ht
                        simpa [List.append_assoc] using this
                      · intro c hc
                        have hc2 : c = '@' := by simpa using hc.symm
                        subst hc2
                        exact ⟨by decide, by decide⟩

theorem anyPrefixMatches_of_match (s : String) (m : ReMatch)
    (h : matchBlueskyChars s.data = some m) : anyPrefixMatches s = true := by
  obtain ⟨p, r, hs, hex⟩ := matchBluesky_consumed s.data m h
  unfold anyPrefixMatches
  rw [List.any_eq_true]
  refine ⟨p.length, ?_, ?_⟩
  · simp only [List.mem_range, hs, List.length_append]
    omega
  · rw [hs, List.take_left]
    exact hex

theorem findA_append_fresh {α : Type} (cs : List (String × α)) (k : String) (v : α)
    (h : findA cs k = none) : findA (cs ++ [(k, v)]) k = some v := by
  induction cs with
  | nil => simp [findA]
  | cons e rest ih =>
      obtain ⟨k0, v0⟩ := e
      by_cases hk : k0 = k
      · simp [findA, hk] at h
      · simp [findA, hk] at h ⊢
        exact ih h

theorem findA_replaceA_self {α : Type} (cs : List (String × α)) (k : String)
    (c v : α) (h : findA cs k = some c) :
    findA (replaceA cs k v) k = some v := by
  induction cs with
  | nil => simp [findA] at h
  | cons e rest ih =>
      obtain ⟨k0, v0⟩ := e
      by_cases hk : k0 = k
      · simp [findA, replaceA, hk]
      · simp [findA, replaceA, hk] at h ⊢
        exact ih h

theorem findA_replaceA_other {α : Type} (cs : List (String × α)) (k k2 : String)
    (v : α) (h : k2 ≠ k) : findA (replaceA cs k v) k2 = findA cs k2 := by
  induction cs with
  | nil => simp [replaceA]
  | cons e rest ih =>
      obtain ⟨k0, v0⟩ := e
      by_cases hk : k0 = k
      · subst hk
        simp [findA, replaceA, Ne.symm h]
      · simp [findA, replaceA, hk]
        by_cases hk2 : k0 = k2 <;> simp [hk2, ih]

theorem getAtPath_append_one (r : H5Node) (p : List String) (k : String) :
    getAtPath r (p ++ [k]) = (getAtPath r p).bind (fun n => getChild n k) := by
  induction p generalizing r with
  | nil =>
      show getAtPath r [k] = _
      unfold getAtPath
      cases h : getChild r k <;> simp [h, getAtPath]
  | cons a p ih =>
      show getAtPath r (a :: (p ++ [k])) = _
      unfold getAtPath
      cases h : getChild r a <;> simp [h, ih]

theorem modifyAtPath_ok_get (path : List String) (root : H5Node)
    (f : H5Node → Except String H5Node) (r' : H5Node)
    (h : modifyAtPath root path f = .ok r') :
    ∃ n n', getAtPath root path = some n ∧ f n = .ok n' ∧ getAtPath r' path = some n' := by
  induction path generalizing root r' with
  | nil => cases root <;> exact ⟨_, r', rfl, h, rfl⟩
  | cons a p ih =>
      cases root with
      | group attrs cs =>
          unfold modifyAtPath at h
          cases hf : findA cs a with
          | none => simp [hf] at h
          | some c =>
              simp only [hf] at h
              cases hm : modifyAtPath c p f with
              | error e => simp [hm] at h
              | ok c' =>
                  simp only [hm] at h
                  obtain ⟨n, n', h1, h2, h3⟩ := ih c c' hm
                  cases h
                  refine ⟨n, n', ?_, h2, ?_⟩
                  · simp [getAtPath, getChild, hf, h1]
                  · simp [getAtPath, getChild, findA_replaceA_self cs a c c' hf, h3]
      | dataset attrs d => exact absurd h (by simp [modifyAtPath])
      | link t => exact absurd h (by simp [modifyAtPath])

theorem insertLinkAt_get (root : H5Node) (path : List String) (k : String)
    (tgt : List String) (r' : H5Node) (h : insertLinkAt root path k tgt = .ok r') :
    getAtPath r' (path ++ [k]) = some (.link tgt) := by
  obtain ⟨n, n', h1, h2, h3⟩ := modifyAtPath_ok_get path root _ r' h
  cases n with
  | group a2 cs2 =>
      have h2' : (if (findA cs2 k).isSome = true
            then (.error "name already exists" : Except String H5Node)
            else .ok (.group a2 (cs2 ++ [(k, .link tgt)]))) = .ok n' := h2
      by_cases hex : (findA cs2 k).isSome
      · rw [if_pos hex] at h2'
        exact absurd h2' (by simp)
      · rw [if_neg hex] at h2'
        have hnone : findA cs2 k = none := Option.not_isSome_iff_eq_none.mp hex
        cases h2'
        rw [getAtPath_append_one, h3]
        simp [getChild, findA_append_fresh cs2 k (H5Node.link tgt) hnone]
  | dataset a2 d => exact absurd h2 (by simp)
  | link t2 => exact absurd h2 (by simp)

/-- List-style induction for the nested inductive `MdMap`. -/
theorem mdMapInd {motive : MdMap → Prop} (hnil : motive .nil)
    (hcons : ∀ k v es, motive es → motive (.cons k v es)) : ∀ m, motive m
  | .nil => hnil
  | .cons k v es => hcons k v es (mdMapInd hnil hcons es)

theorem findA_append_none {α : Type} (l1 l2 : List (String × α)) (x : String)
    (h : findA l1 x = none) : findA (l1 ++ l2) x = findA l2 x := by
  induction l1 with
  | nil => rfl
  | cons e rest ih =>
      obtain ⟨k0, v0⟩ := e
      by_cases hk : k0 = x
      · simp [findA, hk] at h
      · simp [findA, hk] at h ⊢
        exact ih h

theorem replaceA_append_fresh {α : Type} (cs : List (String × α)) (k : String)
    (x y : α) (h : findA cs k = none) :
    replaceA (cs ++ [(k, x)]) k y = cs ++ [(k, y)] := by
  induction cs with
  | nil => simp [replaceA]
  | cons e rest ih =>
      obtain ⟨k0, v0⟩ := e
      by_cases hk : k0 = k
      · simp [findA, hk] at h
      · simp [findA, hk] at h
        simp [replaceA, hk, ih h]

theorem setA_fresh {α : Type} (al : List (String × α)) (n : String) (v : α)
    (h : findA al n = none) : setA al n v = al ++ [(n, v)] := by
  simp [setA, h]

/-- Folding the `_attributes` rule over a fresh dataset accumulates
exactly the listed attributes, in order. -/
theorem setAttrsAt_dataset (attrsM : MdMap) (k : String)
    (a0 : List (String × MdValue)) (cs0 : List (String × H5Node))
    (al : List (String × MdValue)) (dv : MdValue)
    (hfresh : findA cs0 k = none)
    (hok : attrsAllNativeOk attrsM = true)
    (hnodup : (MdMap.keys attrsM).Nodup)
    (hal : ∀ n ∈ MdMap.keys attrsM, findA al n = none) :
    setAttrsAt attrsM [k] (.group a0 (cs0 ++ [(k, .dataset al dv)])) =
      .ok (.group a0 (cs0 ++ [(k, .dataset (al ++ MdMap.toListA attrsM) dv)])) := by
  induction attrsM using mdMapInd generalizing al with
  | hnil => simp [setAttrsAt, MdMap.toListA]
  | hcons n v rest ih =>
      simp only [attrsAllNativeOk, Bool.and_eq_true] at hok
      simp only [MdMap.keys, List.nodup_cons] at hnodup
      have haln : findA al n = none := hal n (by simp [MdMap.keys])
      have hstep : modifyAtPath (.group a0 (cs0 ++ [(k, .dataset al dv)])) [k]
          (setAttrNode n v) =
          .ok (.group a0 (cs0 ++ [(k, .dataset (al ++ [(n, v)]) dv)])) := by
        unfold modifyAtPath
        rw [findA_append_fresh cs0 k _ hfresh]
        unfold modifyAtPath
        simp [setAttrNode, hok.1, setA_fresh al n v haln,
          replaceA_append_fresh cs0 k _ _ hfresh]
      unfold setAttrsAt
      rw [hstep]
      have hal2 : ∀ x ∈ MdMap.keys rest, findA (al ++ [(n, v)]) x = none := by
        intro x hx
        rw [findA_append_none _ _ _ (hal x (by simp [MdMap.keys, hx]))]
        have hxn : ¬(n = x) := by
          intro he
          exact hnodup.1 (he ▸ hx)
        simp [findA, hxn]
      simp [ih (al ++ [(n, v)]) hok.2 hnodup.2 hal2, MdMap.toListA]

theorem findA_append_singleton_other {α : Type} (l : List (String × α))
    (k k2 : String) (v : α) (h : k2 ≠ k) :
    findA (l ++ [(k, v)]) k2 = findA l k2 := by
  induction l with
  | nil => simp [findA, Ne.symm h]
  | cons e rest ih =>
      obtain ⟨k0, v0⟩ := e
      by_cases hk : k0 = k2 <;> simp [findA, hk, ih]

theorem findA_setA_self {α : Type} (l : List (String × α)) (k : String) (v : α) :
    findA (setA l k v) k = some v := by
  unfold setA
  by_cases h : (findA l k).isSome
  · rw [if_pos h]
    obtain ⟨c, hc⟩ := Option.isSome_iff_exists.mp h
    exact findA_replaceA_self l k c v hc
  · rw [if_neg h]
    exact findA_append_fresh l k v (Option.not_isSome_iff_eq_none.mp h)

theorem findA_setA_other {α : Type} (l : List (String × α)) (k k2 : String)
    (v : α) (h : k2 ≠ k) : findA (setA l k v) k2 = findA l k2 := by
  unfold setA
  by_cases hex : (findA l k).isSome
  · rw [if_pos hex]
    exact findA_replaceA_other l k k2 v h
  · rw [if_neg hex]
    exact findA_append_singleton_other l k k2 v h

theorem mdValueAt_cons_cons (m : MdMap) (k0 : String) (rest : List String)
    (hne : rest ≠ []) :
    mdValueAt m (k0 :: rest) =
      (match m.find k0 with
        | some (.map m') => mdValueAt m' rest
        | _ => none) := by
  cases rest with
  | nil => exact absurd rfl hne
  | cons b bs =>
      rw [mdValueAt.eq_def]

/-- Inversion of one step of the Dataset Copier: a successful copy of a
nonempty mapping appends one fresh child for the head entry and then
continues on the tail; the head child is determined by the head value. -/
theorem copyDatasets_cons_inv (k0 : String) (v0 : MdValue) (rest : MdMap)
    (a : List (String × MdValue)) (cs : List (String × H5Node)) (r' : H5Node)
    (h : copyMetadataToH5Datasets (.cons k0 v0 rest) (.group a cs) = .ok r') :
    findA cs k0 = none ∧
    ∃ nd, copyMetadataToH5Datasets rest (.group a (cs ++ [(k0, nd)])) = .ok r' ∧
      (v0 = .null → nd = .dataset [] (.str "None")) ∧
      (v0 = .bytes [0] → nd = .dataset [] (.str "")) ∧
      (∀ m0, v0 = .map m0 → copyMetadataToH5Datasets m0 (.group [] []) = .ok nd ∧
        mdValueNoDupKeys v0 = mdNoDupKeys m0) := by
  rw [copyMetadataToH5Datasets.eq_def] at h
  cases v0 with
  | map m0 =>
      by_cases hex : (findA cs k0).isSome
      · simp [hex] at h
      · simp only [hex, if_false, Bool.false_eq_true] at h
        cases hsub : copyMetadataToH5Datasets m0 (.group [] []) with
        | error e => simp [hsub] at h
        | ok sub =>
            simp only [hsub] at h
            refine ⟨Option.not_isSome_iff_eq_none.mp hex, sub, h,
              fun hc => absurd hc (by simp), fun hc => absurd hc (by simp),
              fun m1 hm => ?_⟩
            cases hm
            exact ⟨hsub, rfl⟩
  | null =>
      by_cases hex : (findA cs k0).isSome
      · simp [hex] at h
      · simp only [hex, if_false, Bool.false_eq_true] at h
        simp only [strBranchTest, if_true] at h
        refine ⟨Option.not_isSome_iff_eq_none.mp hex, .dataset [] (.str "None"), h,
          fun _ => rfl, fun hc => absurd hc (by simp), fun m1 hm => absurd hm (by simp)⟩
  | bytes bs =>
      by_cases hex : (findA cs k0).isSome
      · simp [hex] at h
      · by_cases hb : bs = [0]
        · subst hb
          simp only [hex, if_false, Bool.false_eq_true] at h
          simp only [strBranchTest, if_true, if_pos rfl] at h
          refine ⟨Option.not_isSome_iff_eq_none.mp hex, .dataset [] (.str ""), ?_,
            fun hc => absurd hc (by simp), fun _ => rfl,
            fun m1 hm => absurd hm (by simp)⟩
          simpa using h
        · simp only [hex, if_false, Bool.false_eq_true, hb] at h
          by_cases hemp : bs.isEmpty
          · simp only [strBranchTest, hemp, if_true] at h
            refine ⟨Option.not_isSome_iff_eq_none.mp hex, .dataset [] (.bytes bs), ?_,
              fun hc => absurd hc (by simp),
              fun hc => absurd (by injection hc) hb,
              fun m1 hm => absurd hm (by simp)⟩
            simpa [hemp] using h
          · simp only [strBranchTest, hemp, Bool.false_eq_true, if_false, h5NativeOk,
              if_true] at h
            refine ⟨Option.not_isSome_iff_eq_none.mp hex, .dataset [] (.bytes bs), ?_,
              fun hc => absurd hc (by simp),
              fun hc => absurd (by injection hc) hb,
              fun m1 hm => absurd hm (by simp)⟩
            simpa [hemp] using h
  | str s =>
      by_cases hex : (findA cs k0).isSome
      · simp [hex] at h
      · simp only [hex, if_false, Bool.false_eq_true, strBranchTest, if_true] at h
        exact ⟨Option.not_isSome_iff_eq_none.mp hex, .dataset [] (.str s), h,
          fun hc => absurd hc (by simp), fun hc => absurd hc (by simp),
          fun m1 hm => absurd hm (by simp)⟩
  | int n =>
      by_cases hex : (findA cs k0).isSome
      · simp [hex] at h
      · simp only [hex, if_false, Bool.false_eq_true, strBranchTest, h5NativeOk,
          if_true] at h
        exact ⟨Option.not_isSome_iff_eq_none.mp hex, .dataset [] (.int n), by simpa using h,
          fun hc => absurd hc (by simp), fun hc => absurd hc (by simp),
          fun m1 hm => absurd hm (by simp)⟩
  | bool b =>
      by_cases hex : (findA cs k0).isSome
      · simp [hex] at h
      · simp only [hex, if_false, Bool.false_eq_true, strBranchTest, h5NativeOk,
          if_true] at h
        exact ⟨Option.not_isSome_iff_eq_none.mp hex, .dataset [] (.bool b), by simpa using h,
          fun hc => absurd hc (by simp), fun hc => absurd hc (by simp),
          fun m1 hm => absurd hm (by simp)⟩
  | arr vs =>
      by_cases hex : (findA cs k0).isSome
      · simp [hex] at h
      · by_cases hsb : strBranchTest (.arr vs) = true
        · simp only [hex, if_false, Bool.false_eq_true, hsb, if_true] at h
          exact ⟨Option.not_isSome_iff_eq_none.mp hex, .dataset [] (.arr vs), h,
            fun hc => absurd hc (by simp), fun hc => absurd hc (by simp),
            fun m1 hm => absurd hm (by simp)⟩
        · by_cases hok : h5NativeOk (.arr vs) = true
          · simp only [hex, if_false, Bool.false_eq_true, hsb, hok, if_true] at h
            exact ⟨Option.not_isSome_iff_eq_none.mp hex, .dataset [] (.arr vs), h,
              fun hc => absurd hc (by simp), fun hc => absurd hc (by simp),
              fun m1 hm => absurd hm (by simp)⟩
          · by_cases hser : jsonSerializable (.arr vs) = true
            · simp only [hex, if_false, Bool.false_eq_true, hsb, hok, hser, if_true] at h
              exact ⟨Option.not_isSome_iff_eq_none.mp hex,
                .dataset [] (.str (jsonDumps (.arr vs))), h,
                fun hc => absurd hc (by simp), fun hc => absurd hc (by simp),
                fun m1 hm => absurd hm (by simp)⟩
            · simp [hex, hsb, hok, hser] at h

/-- Inversion of one step of the Attribute Copier: the head entry either
creates a fresh child group (mapping values) or sets one attribute
(leaf values, with the null normalization). -/
theorem copyAttrs_cons_inv (k0 : String) (v0 : MdValue) (rest : MdMap)
    (a : List (String × MdValue)) (cs : List (String × H5Node)) (r' : H5Node)
    (h : copyMetadataToH5Attrs (.cons k0 v0 rest) (.group a cs) = .ok r') :
    (∃ m0 sub, v0 = .map m0 ∧ findA cs k0 = none ∧
        copyMetadataToH5Attrs m0 (.group [] []) = .ok sub ∧
        mdValueNoDupKeys v0 = mdNoDupKeys m0 ∧
        copyMetadataToH5Attrs rest (.group a (cs ++ [(k0, sub)])) = .ok r') ∨
    (isMapV v0 = false ∧ ∃ w,
        copyMetadataToH5Attrs rest (.group (setA a k0 w) cs) = .ok r' ∧
        (v0 = .null → w = .str "None")) := by
  rw [copyMetadataToH5Attrs.eq_def] at h
  cases v0 with
  | map m0 =>
      by_cases hex : (findA cs k0).isSome
      · simp [hex] at h
      · simp only [hex, if_false, Bool.false_eq_true] at h
        cases hsub : copyMetadataToH5Attrs m0 (.group [] []) with
        | error e => simp [hsub] at h
        | ok sub =>
            simp only [hsub] at h
            exact Or.inl ⟨m0, sub, rfl, Option.not_isSome_iff_eq_none.mp hex,
              hsub, rfl, h⟩
  | null =>
      simp only [h5NativeOk, if_true] at h
      exact Or.inr ⟨rfl, .str "None", h, fun _ => rfl⟩
  | str s =>
      simp only [h5NativeOk, if_true] at h
      exact Or.inr ⟨rfl, .str s, h, fun hc => absurd hc (by simp)⟩
  | int n =>
      simp only [h5NativeOk, if_true] at h
      exact Or.inr ⟨rfl, .int n, h, fun hc => absurd hc (by simp)⟩
  | bool b =>
      simp only [h5NativeOk, if_true] at h
      exact Or.inr ⟨rfl, .bool b, h, fun hc => absurd hc (by simp)⟩
  | bytes bs =>
      simp only [h5NativeOk, if_true] at h
      exact Or.inr ⟨rfl, .bytes bs, h, fun hc => absurd hc (by simp)⟩
  | arr vs =>
      by_cases hok : h5NativeOk (.arr vs) = true
      · simp only [hok, if_true] at h
        exact Or.inr ⟨rfl, .arr vs, h, fun hc => absurd hc (by simp)⟩
      · by_cases hser : jsonSerializable (.arr vs) = true
        · simp only [hok, Bool.false_eq_true, if_false, hser, if_true] at h
          exact Or.inr ⟨rfl, .str (jsonDumps (.arr vs)), h, fun hc => absurd hc (by simp)⟩
        · simp [hok, hser] at h

/-- The Dataset Copier never touches children whose names are not keys of
the mapping, and never touches the group's attributes. -/
theorem copyDatasets_preserve : ∀ (m : MdMap) (a : List (String × MdValue))
    (cs : List (String × H5Node)) (r' : H5Node) (x : String),
    copyMetadataToH5Datasets m (.group a cs) = .ok r' →
    (MdMap.keys m).contains x = false →
    ∃ cs', r' = .group a cs' ∧ findA cs' x = findA cs x := by
  intro m
  induction m using mdMapInd with
  | hnil =>
      intro a cs r' x h _
      rw [copyMetadataToH5Datasets.eq_def] at h
      cases h
      exact ⟨cs, rfl, rfl⟩
  | hcons k0 v0 rest ih =>
      intro a cs r' x h hx
      obtain ⟨hfresh, nd, hcont, _, _, _⟩ := copyDatasets_cons_inv k0 v0 rest a cs r' h
      simp only [MdMap.keys, List.contains_cons, Bool.or_eq_false_iff,
        beq_eq_false_iff_ne] at hx
      obtain ⟨cs', hr', hfind⟩ := ih a (cs ++ [(k0, nd)]) r' x hcont hx.2
      exact ⟨cs', hr',
        by rw [hfind, findA_append_singleton_other _ _ _ _ hx.1]⟩

/-- The Attribute Copier never touches attributes or children whose names
are not keys of the mapping. -/
theorem copyAttrs_preserve : ∀ (m : MdMap) (a : List (String × MdValue))
    (cs : List (String × H5Node)) (r' : H5Node) (x : String),
    copyMetadataToH5Attrs m (.group a cs) = .ok r' →
    (MdMap.keys m).contains x = false →
    ∃ a' cs', r' = .group a' cs' ∧ findA a' x = findA a x ∧
      findA cs' x = findA cs x := by
  intro m
  induction m using mdMapInd with
  | hnil =>
      intro a cs r' x h _
      rw [copyMetadataToH5Attrs.eq_def] at h
      cases h
      exact ⟨a, cs, rfl, rfl, rfl⟩
  | hcons k0 v0 rest ih =>
      intro a cs r' x h hx
      simp only [MdMap.keys, List.contains_cons, Bool.or_eq_false_iff,
        beq_eq_false_iff_ne] at hx
      rcases copyAttrs_cons_inv k0 v0 rest a cs r' h with
        ⟨m0, sub, _, _, _, _, hcont⟩ | ⟨_, w, hcont, _⟩
      · obtain ⟨a', cs', hr', hfa, hfc⟩ := ih a (cs ++ [(k0, sub)]) r' x hcont hx.2
        exact ⟨a', cs', hr', hfa,
          by rw [hfc, findA_append_singleton_other _ _ _ _ hx.1]⟩
      · obtain ⟨a', cs', hr', hfa, hfc⟩ := ih (setA a k0 w) cs r' x hcont hx.2
        exact ⟨a', cs', hr',
          by rw [hfa, findA_setA_other _ _ _ _ hx.1], hfc⟩

/-- `mdValueAt` on a singleton path is a key lookup. -/
theorem mdValueAt_singleton (m : MdMap) (k : String) :
    mdValueAt m [k] = m.find k := by
  rw [mdValueAt.eq_def]

/-- If a successful Dataset Copier run saw a nested mapping at key `x`,
the result holds a corresponding fresh child group produced by a
successful recursive run. -/
theorem copyDatasets_find_map : ∀ (m : MdMap) (a : List (String × MdValue))
    (cs : List (String × H5Node)) (r' : H5Node) (x : String) (m0 : MdMap),
    mdNoDupKeys m = true →
    copyMetadataToH5Datasets m (.group a cs) = .ok r' →
    m.find x = some (.map m0) →
    ∃ cs' sub, r' = .group a cs' ∧ findA cs' x = some sub ∧
      copyMetadataToH5Datasets m0 (.group [] []) = .ok sub ∧
      mdNoDupKeys m0 = true := by
  intro m
  induction m using mdMapInd with
  | hnil => intro a cs r' x m0 _ _ hf; simp [MdMap.find] at hf
  | hcons k0 v0 rest ih =>
      intro a cs r' x m0 hnd h hf
      simp only [mdNoDupKeys, Bool.and_eq_true, Bool.not_eq_true'] at hnd
      obtain ⟨hfresh, nd, hcont, _, _, hmap⟩ := copyDatasets_cons_inv k0 v0 rest a cs r' h
      simp only [MdMap.find] at hf
      by_cases hk : k0 = x
      · rw [if_pos hk] at hf
        have hv0 : v0 = .map m0 := by injection hf
        obtain ⟨hsub, hvnd⟩ := hmap m0 hv0
        subst hk
        obtain ⟨cs', hr', hfind⟩ :=
          copyDatasets_preserve rest a (cs ++ [(k0, nd)]) r' k0 hcont hnd.1.1
        refine ⟨cs', nd, hr', ?_, hsub, ?_⟩
        · rw [hfind, findA_append_fresh cs k0 nd hfresh]
        · rw [← hvnd]
          exact hnd.1.2
      · rw [if_neg hk] at hf
        exact ih a (cs ++ [(k0, nd)]) r' x m0 hnd.2 hcont hf

/-- Attribute Copier version of `copyDatasets_find_map`. -/
theorem copyAttrs_find_map : ∀ (m : MdMap) (a : List (String × MdValue))
    (cs : List (String × H5Node)) (r' : H5Node) (x : String) (m0 : MdMap),
    mdNoDupKeys m = true →
    copyMetadataToH5Attrs m (.group a cs) = .ok r' →
    m.find x = some (.map m0) →
    ∃ a' cs' sub, r' = .group a' cs' ∧ findA cs' x = some sub ∧
      copyMetadataToH5Attrs m0 (.group [] []) = .ok sub ∧
      mdNoDupKeys m0 = true := by
  intro m
  induction m using mdMapInd with
  | hnil => intro a cs r' x m0 _ _ hf; simp [MdMap.find] at hf
  | hcons k0 v0 rest ih =>
      intro a cs r' x m0 hnd h hf
      simp only [mdNoDupKeys, Bool.and_eq_true, Bool.not_eq_true'] at hnd
      simp only [MdMap.find] at hf
      rcases copyAttrs_cons_inv k0 v0 rest a cs r' h with
        ⟨m1, sub, hv0, hfresh, hsub, hvnd, hcont⟩ | ⟨hnotmap, w, hcont, _⟩
      · by_cases hk : k0 = x
        · rw [if_pos hk] at hf
          have hm1 : m1 = m0 := by
            rw [hv0] at hf
            injection hf with hf2
            injection hf2
          subst hm1
          subst hk
          obtain ⟨a', cs', hr', _, hfind⟩ :=
            copyAttrs_preserve rest a (cs ++ [(k0, sub)]) r' k0 hcont hnd.1.1
          refine ⟨a', cs', sub, hr', ?_, hsub, ?_⟩
          · rw [hfind, findA_append_fresh cs k0 sub hfresh]
          · rw [← hvnd]
            exact hnd.1.2
        · rw [if_neg hk] at hf
          exact ih a (cs ++ [(k0, sub)]) r' x m0 hnd.2 hcont hf
      · by_cases hk : k0 = x
        · rw [if_pos hk] at hf
          have : isMapV v0 = true := by
            have hv0 : v0 = .map m0 := by injection hf
            rw [hv0]
            rfl
          rw [this] at hnotmap
          exact absurd hnotmap (by simp)
        · rw [if_neg hk] at hf
          exact ih (setA a k0 w) cs r' x m0 hnd.2 hcont hf

theorem dataAtPath_child (a : List (String × MdValue))
    (cs : List (String × H5Node)) (p0 : String) (sub : H5Node)
    (rest : List String) (hfind : findA cs p0 = some sub) :
    dataAtPath (.group a cs) (p0 :: rest) = dataAtPath sub rest := by
  simp [dataAtPath, getAtPath, getChild, hfind]

theorem attrAtPath_child (a : List (String × MdValue))
    (cs : List (String × H5Node)) (p0 : String) (sub : H5Node)
    (rest : List String) (name : String) (hfind : findA cs p0 = some sub) :
    attrAtPath (.group a cs) (p0 :: rest) name = attrAtPath sub rest name := by
  simp [attrAtPath, getAtPath, getChild, hfind]

/-- Deep-path behaviour of the Dataset Copier on the two normalized leaf
values: a `null` leaf is stored as the string `"None"`, and a
single-NUL-byte leaf as the empty string, at any nesting depth. -/
theorem copyDatasets_leaf_deep (target stored : MdValue)
    (hts : (target = .null ∧ stored = .str "None") ∨
           (target = .bytes [0] ∧ stored = .str "")) :
    ∀ (ps : List String) (m : MdMap) (a : List (String × MdValue))
      (cs : List (String × H5Node)) (r' : H5Node) (k : String),
    mdNoDupKeys m = true →
    copyMetadataToH5Datasets m (.group a cs) = .ok r' →
    mdValueAt m (ps ++ [k]) = some target →
    dataAtPath r' (ps ++ [k]) = some stored := by
  intro ps
  induction ps with
  | nil =>
      intro m
      induction m using mdMapInd with
      | hnil =>
          intro a cs r' k _ _ hval
          rw [List.nil_append, mdValueAt_singleton] at hval
          simp [MdMap.find] at hval
      | hcons k0 v0 rest ih =>
          intro a cs r' k hnd h hval
          rw [List.nil_append, mdValueAt_singleton] at hval
          simp only [MdMap.find] at hval
          simp only [mdNoDupKeys, Bool.and_eq_true, Bool.not_eq_true'] at hnd
          obtain ⟨hfresh, nd, hcont, hnullc, hbytec, _⟩ :=
            copyDatasets_cons_inv k0 v0 rest a cs r' h
          by_cases hk : k0 = k
          · rw [if_pos hk] at hval
            have hv0 : v0 = target := by injection hval
            have hndval : nd = .dataset [] stored := by
              rcases hts with ⟨ht, hs⟩ | ⟨ht, hs⟩
              · rw [hs]; exact hnullc (hv0.trans ht)
              · rw [hs]; exact hbytec (hv0.trans ht)
            subst hk
            obtain ⟨cs', hr', hfind⟩ :=
              copyDatasets_preserve rest a (cs ++ [(k0, nd)]) r' k0 hcont hnd.1.1
            subst hr'
            rw [List.nil_append]
            rw [findA_append_fresh cs k0 nd hfresh] at hfind
            simp [dataAtPath, getAtPath, getChild, hfind, hndval]
          · rw [if_neg hk] at hval
            have hval' : mdValueAt rest ([] ++ [k]) = some target := by
              rw [List.nil_append, mdValueAt_singleton]
              exact hval
            exact ih a (cs ++ [(k0, nd)]) r' k hnd.2 hcont hval'
  | cons p0 ps' ihps =>
      intro m a cs r' k hnd h hval
      rw [show (p0 :: ps') ++ [k] = p0 :: (ps' ++ [k]) from rfl] at hval ⊢
      rw [mdValueAt_cons_cons m p0 _ (by simp)] at hval
      cases hf : m.find p0 with
      | none => rw [hf] at hval; simp at hval
      | some v1 =>
          rw [hf] at hval
          cases v1 with
          | map m2 =>
              obtain ⟨cs', sub, hr', hfindc, hsub, hm2nd⟩ :=
                copyDatasets_find_map m a cs r' p0 m2 hnd h hf
              have hdeep := ihps m2 [] [] sub k hm2nd hsub hval
              subst hr'
              rw [dataAtPath_child a cs' p0 sub _ hfindc]
              exact hdeep
          | null => simp at hval
          | bool b => simp at hval
          | int n => simp at hval
          | str s => simp at hval
          | bytes bs => simp at hval
          | arr vs => simp at hval

/-- Deep-path behaviour of the Attribute Copier on a `null` leaf: the
attribute is stored as the string `"None"`, at any nesting depth. -/
theorem copyAttrs_null_deep :
    ∀ (ps : List String) (m : MdMap) (a : List (String × MdValue))
      (cs : List (String × H5Node)) (r' : H5Node) (k : String),
    mdNoDupKeys m = true →
    copyMetadataToH5Attrs m (.group a cs) = .ok r' →
    mdValueAt m (ps ++ [k]) = some .null →
    attrAtPath r' ps k = some (.str "None") := by
  intro ps
  induction ps with
  | nil =>
      intro m
      induction m using mdMapInd with
      | hnil =>
          intro a cs r' k _ _ hval
          rw [List.nil_append, mdValueAt_singleton] at hval
          simp [MdMap.find] at hval
      | hcons k0 v0 rest ih =>
          intro a cs r' k hnd h hval
          rw [List.nil_append, mdValueAt_singleton] at hval
          simp only [MdMap.find] at hval
          simp only [mdNoDupKeys, Bool.and_eq_true, Bool.not_eq_true'] at hnd
          by_cases hk : k0 = k
          · rw [if_pos hk] at hval
            have hv0 : v0 = .null := by injection hval
            rcases copyAttrs_cons_inv k0 v0 rest a cs r' h with
              ⟨m0, sub, hm, _, _, _, _⟩ | ⟨_, w, hcont, hnullw⟩
            · rw [hv0] at hm
              exact absurd hm (by simp)
            · have hw : w = .str "None" := hnullw hv0
              subst hk
              obtain ⟨a', cs', hr', hfa, _⟩ :=
                copyAttrs_preserve rest (setA a k0 w) cs r' k0 hcont hnd.1.1
              subst hr'
              simp [attrAtPath, getAtPath, nodeAttrs, hfa, findA_setA_self, hw]
          · rw [if_neg hk] at hval
            rcases copyAttrs_cons_inv k0 v0 rest a cs r' h with
              ⟨m0, sub, _, _, _, _, hcont⟩ | ⟨_, w, hcont, _⟩
            · have hval' : mdValueAt rest ([] ++ [k]) = some .null := by
                rw [List.nil_append, mdValueAt_singleton]
                exact hval
              exact ih a (cs ++ [(k0, sub)]) r' k hnd.2 hcont hval'
            · have hval' : mdValueAt rest ([] ++ [k]) = some .null := by
                rw [List.nil_append, mdValueAt_singleton]
                exact hval
              exact ih (setA a k0 w) cs r' k hnd.2 hcont hval'
  | cons p0 ps' ihps =>
      intro m a cs r' k hnd h hval
      rw [show (p0 :: ps') ++ [k] = p0 :: (ps' ++ [k]) from rfl] at hval
      rw [mdValueAt_cons_cons m p0 _ (by simp)] at hval
      cases hf : m.find p0 with
      | none => rw [hf] at hval; simp at hval
      | some v1 =>
          rw [hf] at hval
          cases v1 with
          | map m2 =>
              obtain ⟨a', cs', sub, hr', hfindc, hsub, hm2nd⟩ :=
                copyAttrs_find_map m a cs r' p0 m2 hnd h hf
              have hdeep := ihps m2 [] [] sub k hm2nd hsub hval
              subst hr'
              rw [attrAtPath_child a' cs' p0 sub _ k hfindc]
              exact hdeep
          | null => simp at hval
          | bool b => simp at hval
          | int n => simp at hval
          | str s => simp at hval
          | bytes bs => simp at hval
          | arr vs => simp at hval

theorem hexVal_hexDigitChar (n : Nat) (h : n < 16) :
    hexVal (hexDigitChar n) = some n := by
  interval_cases n <;> rfl

theorem isAsciiDigit_digitChar10 (d : Nat) (h : d < 10) :
    isAsciiDigit (digitChar10 d) = true := by
  interval_cases d <;> rfl

theorem toNat_digitChar10 (d : Nat) (h : d < 10) :
    (digitChar10 d).toNat = 48 + d := by
  interval_cases d <;> rfl

/-- The JSON string-body parser inverts the escaper. -/
theorem parseJsonStringBody_escape (s rest : List Char) :
    parseJsonStringBody (escapeJsonString s ++ '"' :: rest) = some (s, rest) := by
  induction s with
  | nil => simp [escapeJsonString, parseJsonStringBody]
  | cons c cs ih =>
      by_cases h1 : c = '"'
      · subst h1
        simp [escapeJsonString, escapeJsonChar, parseJsonStringBody,
          parseJsonEscapeBody, ih]
      · by_cases h2 : c = '\\'
        · subst h2
          simp [escapeJsonString, escapeJsonChar, parseJsonStringBody,
            parseJsonEscapeBody, ih]
        · by_cases h3 : c.toNat < 32
          · have hdiv : c.toNat / 16 < 16 := by omega
            have hmod : c.toNat % 16 < 16 := Nat.mod_lt _ (by norm_num)
            simp only [escapeJsonString, escapeJsonChar, h1, h2, h3, if_true,
              if_false, List.cons_append, List.append_assoc, List.nil_append]
            simp [parseJsonStringBody, parseJsonEscapeBody,
              hexVal_hexDigitChar _ hdiv, hexVal_hexDigitChar _ hmod, ih]
            rw [show hexVal '0' = some 0 from rfl]
            show some (Char.ofNat (((0 * 16 + 0) * 16 + c.toNat / 16) * 16 +
              c.toNat % 16) :: cs, rest) = some (c :: cs, rest)
            have harith : ((0 * 16 + 0) * 16 + c.toNat / 16) * 16 +
                c.toNat % 16 = c.toNat := by omega
            rw [harith, Char.ofNat_toNat]
          · simp [escapeJsonString, escapeJsonChar, h1, h2, h3,
              parseJsonStringBody, ih]

theorem natCharsAux_all_digits : ∀ (fuel n : Nat),
    (natCharsAux fuel n).all isAsciiDigit = true := by
  intro fuel
  induction fuel with
  | zero => intro n; rfl
  | succ f ih =>
      intro n
      by_cases h : n = 0
      · simp [natCharsAux, h]
      · simp [natCharsAux, h,
          isAsciiDigit_digitChar10 (n % 10) (Nat.mod_lt _ (by norm_num)), ih]

theorem natChars_all_digits (n : Nat) : (natChars n).all isAsciiDigit = true := by
  unfold natChars
  by_cases h : n = 0
  · simp only [h, if_true]
    decide
  · simp [h, List.all_reverse, natCharsAux_all_digits]

theorem natChars_ne_nil (n : Nat) : natChars n ≠ [] := by
  unfold natChars
  by_cases h : n = 0
  · simp [h]
  · simp only [h, if_false]
    cases n with
    | zero => exact absurd rfl h
    | succ m => simp [natCharsAux]

theorem foldl_natCharsAux : ∀ (fuel n : Nat), n ≤ fuel → ∀ (acc : Nat),
    List.foldl (fun a c => 10 * a + (c.toNat - 48)) acc (natCharsAux fuel n).reverse =
      acc * 10 ^ (natCharsAux fuel n).length + n := by
  intro fuel
  induction fuel with
  | zero =>
      intro n hn acc
      interval_cases n
      simp [natCharsAux]
  | succ f ih =>
      intro n hn acc
      by_cases h : n = 0
      · simp [natCharsAux, h]
      · have hlt : n / 10 < n := Nat.div_lt_self (by omega) (by norm_num)
        have hdiv_le : n / 10 ≤ f := by omega
        rw [natCharsAux]
        simp only [h, if_false]
        rw [List.reverse_cons, List.foldl_append, ih (n / 10) hdiv_le acc]
        simp only [List.foldl_cons, List.foldl_nil, List.length_cons]
        rw [toNat_digitChar10 (n % 10) (Nat.mod_lt _ (by norm_num))]
        have hsub : 48 + n % 10 - 48 = n % 10 := by omega
        rw [hsub, pow_succ]
        have hmod : 10 * (n / 10) + n % 10 = n := by omega
        calc 10 * (acc * 10 ^ (natCharsAux f (n / 10)).length + n / 10) + n % 10
            = acc * (10 ^ (natCharsAux f (n / 10)).length * 10) +
              (10 * (n / 10) + n % 10) := by ring
          _ = acc * (10 ^ (natCharsAux f (n / 10)).length * 10) + n := by rw [hmod]

theorem digitsVal_natChars (n : Nat) : digitsVal (natChars n) = n := by
  unfold natChars digitsVal
  by_cases h : n = 0
  · simp only [h, if_true]
    decide
  · simp only [h, if_false]
    simpa using foldl_natCharsAux n n (le_refl n) 0

theorem parseJsonNumber_intChars (n : Int) (rest : List Char)
    (hrest : ∀ c, rest.head? = some c → isAsciiDigit c = false) :
    parseJsonNumber (intChars n ++ rest) = some (n, rest) := by
  have htake : ∀ m : Nat,
      takeWhileP isAsciiDigit (natChars m ++ rest) = (natChars m, rest) :=
    fun m => takeWhileP_append _ _ _ (natChars_all_digits m) hrest
  by_cases hneg : n < 0
  · simp only [intChars, hneg, if_true, List.cons_append]
    simp [parseJsonNumber, htake, natChars_ne_nil, digitsVal_natChars,
      Int.ofNat_natAbs_of_nonpos (le_of_lt hneg)]
  · simp only [intChars, hneg, if_false]
    obtain ⟨c, cs2, heq⟩ : ∃ c cs2, natChars n.toNat = c :: cs2 := by
      cases hh : natChars n.toNat with
      | nil => exact absurd hh (natChars_ne_nil _)
      | cons c cs2 => exact ⟨c, cs2, rfl⟩
    have hcdig : isAsciiDigit c = true := by
      have hall := natChars_all_digits n.toNat
      rw [heq] at hall
      simp at hall
      exact hall.1
    have hcneg : ¬(c = '-') := by
      intro hc
      rw [hc] at hcdig
      exact absurd hcdig (by decide)
    rw [heq, List.cons_append]
    rw [parseJsonNumber]
    simp only [hcneg, if_false]
    rw [show c :: (cs2 ++ rest) = natChars n.toNat ++ rest by rw [heq]; rfl]
    rw [htake]
    simp [natChars_ne_nil, digitsVal_natChars]
    omega

theorem parseJsonV_rbracket (fuel : Nat) (rest : List Char) :
    parseJsonV fuel (']' :: rest) = none := by
  cases fuel with
  | zero => simp [parseJsonV]
  | succ f =>
      simp [parseJsonV, stripPrefixChars, parseJsonNumber, takeWhileP, isAsciiDigit]

theorem head_not_digit (d : Char) (hd : isAsciiDigit d = false) (l : List Char) :
    ∀ c, (d :: l).head? = some c → isAsciiDigit c = false := by
  intro c hc
  simp at hc
  rw [← hc]
  exact hd

theorem char_ne_of_toNat (c d : Char) (m : Nat) (hm : d.toNat = m)
    (h : c.toNat ≠ m) : ¬(c = d) :=
  fun he => h (by rw [he, hm])

theorem intChars_head (n : Int) : ∃ c cs2, intChars n = c :: cs2 ∧
    (c.toNat = 45 ∨ (48 ≤ c.toNat ∧ c.toNat ≤ 57)) := by
  unfold intChars
  by_cases hneg : n < 0
  · simp only [hneg, if_true]
    exact ⟨'-', _, rfl, Or.inl rfl⟩
  · simp only [hneg, if_false]
    obtain ⟨c, cs2, heq⟩ : ∃ c cs2, natChars n.toNat = c :: cs2 := by
      cases hh : natChars n.toNat with
      | nil => exact absurd hh (natChars_ne_nil _)
      | cons c cs2 => exact ⟨c, cs2, rfl⟩
    have hcdig : isAsciiDigit c = true := by
      have hall := natChars_all_digits n.toNat
      rw [heq] at hall
      simp at hall
      exact hall.1
    simp only [isAsciiDigit, Bool.and_eq_true, decide_eq_true_eq] at hcdig
    exact ⟨c, cs2, heq, Or.inr hcdig⟩

mutual

/-- The fueled JSON parser inverts `jsonDumpsV` on serializable values,
for any sufficient fuel, leaving a non-digit-headed remainder intact. -/
theorem parse_dumps_v : ∀ (v : MdValue) (fuel : Nat) (rest : List Char),
    jsonSerializable v = true →
    (∀ c, rest.head? = some c → isAsciiDigit c = false) →
    jsonFuelV v ≤ fuel →
    parseJsonV fuel (jsonDumpsV v ++ rest) = some (v, rest)
  | .null, fuel, rest, _, _, hf => by
      cases fuel with
      | zero => simp [jsonFuelV] at hf
      | succ f => simp [jsonDumpsV, parseJsonV, stripPrefixChars]
  | .bool true, fuel, rest, _, _, hf => by
      cases fuel with
      | zero => simp [jsonFuelV] at hf
      | succ f => simp [jsonDumpsV, parseJsonV, stripPrefixChars]
  | .bool false, fuel, rest, _, _, hf => by
      cases fuel with
      | zero => simp [jsonFuelV] at hf
      | succ f => simp [jsonDumpsV, parseJsonV, stripPrefixChars]
  | .int n, fuel, rest, _, hrest, hf => by
      cases fuel with
      | zero => simp [jsonFuelV] at hf
      | succ f =>
          obtain ⟨c, cs2, heq, hc⟩ := intChars_head n
          have hn : ¬(c = 'n') :=
            char_ne_of_toNat c 'n' 110 rfl (by rcases hc with h | h <;> omega)
          have ht : ¬(c = 't') :=
            char_ne_of_toNat c 't' 116 rfl (by rcases hc with h | h <;> omega)
          have hfa : ¬(c = 'f') :=
            char_ne_of_toNat c 'f' 102 rfl (by rcases hc with h | h <;> omega)
          have hq : ¬(c = '"') :=
            char_ne_of_toNat c '"' 34 rfl (by rcases hc with h | h <;> omega)
          have hb : ¬(c = '[') :=
            char_ne_of_toNat c '[' 91 rfl (by rcases hc with h | h <;> omega)
          have hbr : ¬(c = '\x7b') :=
            char_ne_of_toNat c '\x7b' 123 rfl (by rcases hc with h | h <;> omega)
          have hnum := parseJsonNumber_intChars n rest hrest
          rw [show jsonDumpsV (.int n) = intChars n by simp [jsonDumpsV], heq,
            List.cons_append]
          rw [show intChars n ++ rest = c :: (cs2 ++ rest) by rw [heq]; rfl] at hnum
          simp [parseJsonV, stripPrefixChars, hn, ht, hfa, hq, hb, hbr, hnum]
  | .str s, fuel, rest, _, _, hf => by
      cases fuel with
      | zero => simp [jsonFuelV] at hf
      | succ f =>
          have hbody := parseJsonStringBody_escape s.data rest
          simp [jsonDumpsV, parseJsonV, stripPrefixChars, hbody, mk_data]
  | .bytes bs, fuel, rest, hs, _, _ => by simp [jsonSerializable] at hs
  | .arr vs, fuel, rest, hs, _, hf => by
      cases fuel with
      | zero => simp [jsonFuelV] at hf
      | succ f =>
          have hs' : jsonSerializableArr vs = true := by
            simpa [jsonSerializable] using hs
          have hfa : jsonFuelArr vs ≤ f := by
            simp [jsonFuelV] at hf
            omega
          have hitems := parse_dumps_arr vs f rest hs' hfa
          simp [jsonDumpsV, parseJsonV, stripPrefixChars, hitems]
  | .map es, fuel, rest, hs, _, hf => by
      cases fuel with
      | zero => simp [jsonFuelV] at hf
      | succ f =>
          have hs' : jsonSerializableMap es = true := by
            simpa [jsonSerializable] using hs
          have hfm : jsonFuelMap es ≤ f := by
            simp [jsonFuelV] at hf
            omega
          have hitems := parse_dumps_map es f rest hs' hfm
          simp [jsonDumpsV, parseJsonV, stripPrefixChars, hitems]

/-- `parseJsonArrItems` inverts `jsonDumpsArr` before a closing bracket. -/
theorem parse_dumps_arr : ∀ (vs : MdArr) (fuel : Nat) (rest : List Char),
    jsonSerializableArr vs = true →
    jsonFuelArr vs ≤ fuel →
    parseJsonArrItems fuel (jsonDumpsArr vs ++ ']' :: rest) = some (vs, rest)
  | .nil, fuel, rest, _, hf => by
      cases fuel with
      | zero => simp [jsonFuelArr] at hf
      | succ f =>
          simp [jsonDumpsArr, parseJsonArrItems, parseJsonV_rbracket]
  | .cons v vs2, fuel, rest, hs, hf => by
      have hs' : jsonSerializable v = true ∧ jsonSerializableArr vs2 = true := by
        simpa [jsonSerializableArr] using hs
      cases fuel with
      | zero => simp [jsonFuelArr] at hf
      | succ f =>
      cases f with
      | zero => exact absurd hf (by simp [jsonFuelArr])
      | succ g =>
          have hfv : jsonFuelV v ≤ g + 1 := by
            simp [jsonFuelArr] at hf
            omega
          have hfa : jsonFuelArr vs2 ≤ g := by
            simp [jsonFuelArr] at hf
            omega
          cases vs2 with
          | nil =>
              have hv := parse_dumps_v v (g + 1) (']' :: rest) hs'.1
                (head_not_digit ']' (by decide) rest) hfv
              simp [jsonDumpsArr, parseJsonArrItems, hv, parseJsonArrSep]
          | cons v2 vs3 =>
              have hv := parse_dumps_v v (g + 1)
                (',' :: ' ' :: (jsonDumpsArr (.cons v2 vs3) ++ ']' :: rest)) hs'.1
                (head_not_digit ',' (by decide) _) hfv
              have hrec := parse_dumps_arr (.cons v2 vs3) g rest hs'.2 hfa
              rw [show jsonDumpsArr (.cons v (.cons v2 vs3)) ++ ']' :: rest =
                  jsonDumpsV v ++
                    (',' :: ' ' :: (jsonDumpsArr (.cons v2 vs3) ++ ']' :: rest)) by
                simp [jsonDumpsArr]]
              simp [parseJsonArrItems, hv, parseJsonArrSep, hrec]

/-- `parseJsonMapItems` inverts `jsonDumpsMap` before a closing brace. -/
theorem parse_dumps_map : ∀ (es : MdMap) (fuel : Nat) (rest : List Char),
    jsonSerializableMap es = true →
    jsonFuelMap es ≤ fuel →
    parseJsonMapItems fuel (jsonDumpsMap es ++ '\x7d' :: rest) = some (es, rest)
  | .nil, fuel, rest, _, hf => by
      cases fuel with
      | zero => simp [jsonFuelMap] at hf
      | succ f => simp [jsonDumpsMap, parseJsonMapItems]
  | .cons k v es2, fuel, rest, hs, hf => by
      have hs' : jsonSerializable v = true ∧ jsonSerializableMap es2 = true := by
        simpa [jsonSerializableMap] using hs
      cases fuel with
      | zero => simp [jsonFuelMap] at hf
      | succ f =>
      cases f with
      | zero => exact absurd hf (by simp [jsonFuelMap])
      | succ f2 =>
      cases f2 with
      | zero => exact absurd hf (by simp [jsonFuelMap])
      | succ g =>
          have hfv : jsonFuelV v ≤ g + 1 := by
            simp [jsonFuelMap] at hf
            omega
          have hfm : jsonFuelMap es2 ≤ g := by
            simp [jsonFuelMap] at hf
            omega
          cases es2 with
          | nil =>
              have hbody := parseJsonStringBody_escape k.data
                (':' :: ' ' :: (jsonDumpsV v ++ '\x7d' :: rest))
              have hv := parse_dumps_v v (g + 1) ('\x7d' :: rest) hs'.1
                (head_not_digit '\x7d' (by decide) rest) hfv
              rw [show jsonDumpsMap (.cons k v .nil) ++ '\x7d' :: rest =
                  '"' :: (escapeJsonString k.data ++
                    ('"' :: ':' :: ' ' :: (jsonDumpsV v ++ '\x7d' :: rest))) by
                simp [jsonDumpsMap]]
              simp [parseJsonMapItems, hbody, parseJsonMapColon, hv,
                parseJsonMapSep, mk_data]
          | cons k2 v2 es3 =>
              have hbody := parseJsonStringBody_escape k.data
                (':' :: ' ' :: (jsonDumpsV v ++
                  (',' :: ' ' :: (jsonDumpsMap (.cons k2 v2 es3) ++ '\x7d' :: rest))))
              have hv := parse_dumps_v v (g + 1)
                (',' :: ' ' :: (jsonDumpsMap (.cons k2 v2 es3) ++ '\x7d' :: rest)) hs'.1
                (head_not_digit ',' (by decide) _) hfv
              have hrec := parse_dumps_map (.cons k2 v2 es3) g rest hs'.2 hfm
              rw [show jsonDumpsMap (.cons k v (.cons k2 v2 es3)) ++ '\x7d' :: rest =
                  '"' :: (escapeJsonString k.data ++
                    ('"' :: ':' :: ' ' :: (jsonDumpsV v ++
                      (',' :: ' ' :: (jsonDumpsMap (.cons k2 v2 es3) ++
                        '\x7d' :: rest))))) by
                simp [jsonDumpsMap]]
              simp [parseJsonMapItems, hbody, parseJsonMapColon, hv,
                parseJsonMapSep, hrec, mk_data]

end

theorem intChars_length_pos (n : Int) : 1 ≤ (intChars n).length := by
  obtain ⟨c, cs2, heq, -⟩ := intChars_head n
  simp [heq]

mutual

/-- The canonical fuel of a serializable value is covered by twice the
length of its `json.dumps` text. -/
theorem jsonFuelV_le : ∀ (v : MdValue), jsonSerializable v = true →
    jsonFuelV v ≤ 2 * (jsonDumpsV v).length
  | .null, _ => by simp [jsonFuelV, jsonDumpsV]
  | .bool true, _ => by simp [jsonFuelV, jsonDumpsV]
  | .bool false, _ => by simp [jsonFuelV, jsonDumpsV]
  | .int n, _ => by
      have h := intChars_length_pos n
      simp only [jsonFuelV, jsonDumpsV]
      omega
  | .str s, _ => by
      simp [jsonFuelV, jsonDumpsV]
      omega
  | .bytes bs, hs => by simp [jsonSerializable] at hs
  | .arr vs, hs => by
      have h := jsonFuelArr_le vs (by simpa [jsonSerializable] using hs)
      simp only [jsonFuelV, jsonDumpsV, List.length_cons, List.length_append,
        List.length_singleton]
      omega
  | .map es, hs => by
      have h := jsonFuelMap_le es (by simpa [jsonSerializable] using hs)
      simp only [jsonFuelV, jsonDumpsV, List.length_cons, List.length_append,
        List.length_singleton]
      omega

/-- Fuel bound for canonical array items. -/
theorem jsonFuelArr_le : ∀ (vs : MdArr), jsonSerializableArr vs = true →
    jsonFuelArr vs ≤ 2 * (jsonDumpsArr vs).length + 3
  | .nil, _ => by simp [jsonFuelArr, jsonDumpsArr]
  | .cons v vs2, hs => by
      have hs' : jsonSerializable v = true ∧ jsonSerializableArr vs2 = true := by
        simpa [jsonSerializableArr] using hs
      have hv := jsonFuelV_le v hs'.1
      cases vs2 with
      | nil =>
          simp only [jsonFuelArr, jsonDumpsArr]
          omega
      | cons v2 vs3 =>
          have hrec := jsonFuelArr_le (.cons v2 vs3) hs'.2
          simp only [jsonFuelArr, jsonDumpsArr, List.length_cons,
            List.length_append] at hrec ⊢
          omega

/-- Fuel bound for canonical object members. -/
theorem jsonFuelMap_le : ∀ (es : MdMap), jsonSerializableMap es = true →
    jsonFuelMap es ≤ 2 * (jsonDumpsMap es).length + 3
  | .nil, _ => by simp [jsonFuelMap, jsonDumpsMap]
  | .cons k v es2, hs => by
      have hs' : jsonSerializable v = true ∧ jsonSerializableMap es2 = true := by
        simpa [jsonSerializableMap] using hs
      have hv := jsonFuelV_le v hs'.1
      cases es2 with
      | nil =>
          simp only [jsonFuelMap, jsonDumpsMap, List.length_cons,
            List.length_append]
          omega
      | cons k2 v2 es3 =>
          have hrec := jsonFuelMap_le (.cons k2 v2 es3) hs'.2
          simp only [jsonFuelMap, jsonDumpsMap, List.length_cons,
            List.length_append] at hrec ⊢
          omega

end

/-- `json.loads` inverts `json.dumps` on every serializable value. -/
theorem jsonLoads_jsonDumps (v : MdValue) (hs : jsonSerializable v = true) :
    jsonLoads (jsonDumps v) = some v := by
  have hb := jsonFuelV_le v hs
  have hp := parse_dumps_v v (2 * (jsonDumpsV v).length + 2) [] hs
    (fun c hc => by simp at hc) (by omega)
  rw [List.append_nil] at hp
  simp [jsonLoads, jsonDumps, mk_data, hp]

/-! ## The claims -/

/-- C3: interpreting the tree
`{"entry": {"_attributes": {"NX_Class": "NXEntry"}, "title": "#bluesky/start/sample_name"}}`
over a file whose `/bluesky/start/sample_name` dataset holds `"Sample A"`
produces group `/entry` with attribute `NX_Class = "NXEntry"` and a link
`/entry/title` whose target is `/bluesky/start/sample_name`; the shorthand
string form creates the link without recursing. -/
theorem claim_C3_end_to_end :
    copyNexusMdToNexusH5 nexusMdC3 [] rootC3 = .ok resultC3 ∧
    attrAtPath resultC3 ["entry"] "NX_Class" = some (.str "NXEntry") ∧
    getAtPath resultC3 ["entry", "title"] = some (.link ["bluesky", "start", "sample_name"]) ∧
    getAtPath resultC3 ["bluesky", "start", "sample_name"] =
      some (.dataset [] (.str "Sample A")) :=
  ⟨rfl, rfl, rfl, rfl⟩

/-- C1 as stated is false: on a file holding both `/bluesky/desc/k1`
(data `"B"`) and `/bluesky/desc/primary/k1` (data `"A"`), resolving
`#bluesky/desc/primary/k1` returns the dataset holding `"B"`, not the
node at `/bluesky/desc/primary/k1`: the stream segment is not consulted
by `_get_h5_group_or_dataset`. -/
theorem claim_C1_counterexample :
    parseBlueskyDocumentPath "#bluesky/desc/primary/k1" =
      .ok ⟨"desc", some "primary", ["k1"], none⟩ ∧
    getH5GroupOrDataset ⟨"desc", some "primary", ["k1"], none⟩ rootC1 =
      .ok (.dataset [] (.str "B")) ∧
    getAtPath rootC1 ["bluesky", "desc", "primary", "k1"] =
      some (.dataset [] (.str "A")) ∧
    ("B" : String) ≠ "A" :=
  ⟨rfl, rfl, rfl, by decide⟩

/-- C1 (amended): for a `desc` descriptor the Reference Resolver selects
the `desc` sub-hierarchy under the top-level `bluesky` container and then
traverses the remaining keys, ignoring the stream entirely: resolving
`#bluesky/desc/<stream>/<k1>` yields the node at `/bluesky/desc/<k1>`. -/
theorem claim_C1_amended (stream k1 : String) (root n : H5Node)
    (hs : isWordStr stream = true) (hk : isWordStr k1 = true)
    (hn : getAtPath root ["bluesky", "desc", k1] = some n) :
    parseBlueskyDocumentPath ("#bluesky/desc/" ++ stream ++ "/" ++ k1) =
      .ok ⟨"desc", some stream, [k1], none⟩ ∧
    getH5GroupOrDataset ⟨"desc", some stream, [k1], none⟩ root = .ok n := by
  constructor
  · have hstr : ("#bluesky/desc/" ++ stream ++ "/" ++ k1) =
        String.mk ("#bluesky/".data ++
          ('d' :: 'e' :: 's' :: 'c' :: '/' :: (stream.data ++ joinSlash [k1]))) := by
      apply String.ext
      simp [String.data_append, joinSlash]
    rw [hstr]
    exact parse_desc stream [k1] hs (by intro x hx; simp at hx; rw [hx]; exact hk)
  · simp [getH5GroupOrDataset, blueskyTargetPath, hn]

/-- Witness for C1 (amended) at `stream = "primary"`, `k1 = "k1"` over
`rootC1`. -/
theorem claim_C1_amended_witness :
    parseBlueskyDocumentPath "#bluesky/desc/primary/k1" =
      .ok ⟨"desc", some "primary", ["k1"], none⟩ ∧
    getH5GroupOrDataset ⟨"desc", some "primary", ["k1"], none⟩ rootC1 =
      .ok (.dataset [] (.str "B")) := by
  have h := claim_C1_amended "primary" "k1" rootC1 (.dataset [] (.str "B"))
    rfl rfl rfl
  exact h

/-- C2 as stated is false: `#bluesky/startXYZ` does not match the grammar
exactly (there are trailing characters after the recognized portion), yet
the parser succeeds: `re.match` anchors only at the start. -/
theorem claim_C2_counterexample :
    specGrammarExact "#bluesky/startXYZ" = false ∧
    parseBlueskyDocumentPath "#bluesky/startXYZ" = .ok ⟨"start", none, [], none⟩ :=
  ⟨rfl, rfl⟩

/-- C2 (amended): every string that matches the grammar exactly parses
successfully, and every string with no grammar-matching prefix fails with
the parse error; but trailing characters after a recognized portion are
ignored rather than rejected (the separate counterexample theorem). -/
theorem claim_C2_amended :
    (∀ s : String, specGrammarExact s = true →
      ∃ d, parseBlueskyDocumentPath s = .ok d) ∧
    (∀ s : String, anyPrefixMatches s = false →
      parseBlueskyDocumentPath s = .error ("failed to parse '" ++ s ++ "'")) := by
  constructor
  · intro s h
    unfold specGrammarExact at h
    unfold parseBlueskyDocumentPath matchBlueskyChars
    cases hp : stripPrefixChars "#bluesky/".data s.data with
    | none => rw [hp] at h; exact absurd h (by simp)
    | some r0 =>
        simp only [hp] at h ⊢
        cases hd : matchDoc r0 with
        | none => rw [hd] at h; exact absurd h (by simp)
        | some t =>
            obtain ⟨doc, st, r1⟩ := t
            simp only [hd]
            exact ⟨_, rfl⟩
  · intro s h
    cases hm : matchBlueskyChars s.data with
    | none => simp [parseBlueskyDocumentPath, hm]
    | some m =>
        exfalso
        rw [anyPrefixMatches_of_match s m hm] at h
        exact absurd h (by simp)

/-- Witness for C2 (amended): the exactly-matching string
`#bluesky/start/abc@def` parses, and `nope`, none of whose prefixes
matches the grammar, fails. -/
theorem claim_C2_amended_witness :
    specGrammarExact "#bluesky/start/abc@def" = true ∧
    (∃ d, parseBlueskyDocumentPath "#bluesky/start/abc@def" = .ok d) ∧
    anyPrefixMatches "nope" = false ∧
    parseBlueskyDocumentPath "nope" =
      .error ("failed to parse '" ++ "nope" ++ "'") :=
  ⟨rfl, claim_C2_amended.1 _ rfl, rfl, claim_C2_amended.2 "nope" rfl⟩

/-- C4: `#bluesky/start` and `#bluesky/stop` parse to descriptors with the
matching kind and no keys; `#bluesky/desc/<stream>/<k1>/<k2>` parses to
kind `desc`, the given stream, and the ordered key tuple `(k1, k2)`; and
`#bluesky/desc` with no stream fails to parse. -/
theorem claim_C4_parser_roundtrip (stream k1 k2 : String)
    (hs : isWordStr stream = true) (h1 : isWordStr k1 = true)
    (h2 : isWordStr k2 = true) :
    parseBlueskyDocumentPath "#bluesky/start" = .ok ⟨"start", none, [], none⟩ ∧
    parseBlueskyDocumentPath "#bluesky/stop" = .ok ⟨"stop", none, [], none⟩ ∧
    parseBlueskyDocumentPath ("#bluesky/desc/" ++ stream ++ "/" ++ k1 ++ "/" ++ k2) =
      .ok ⟨"desc", some stream, [k1, k2], none⟩ ∧
    parseBlueskyDocumentPath "#bluesky/desc" =
      .error "failed to parse '#bluesky/desc'" := by
  refine ⟨rfl, rfl, ?_, rfl⟩
  have hstr : ("#bluesky/desc/" ++ stream ++ "/" ++ k1 ++ "/" ++ k2) =
      String.mk ("#bluesky/".data ++
        ('d' :: 'e' :: 's' :: 'c' :: '/' :: (stream.data ++ joinSlash [k1, k2]))) := by
    apply String.ext
    simp [String.data_append, joinSlash]
  rw [hstr]
  refine parse_desc stream [k1, k2] hs ?_
  intro x hx
  simp at hx
  rcases hx with h | h <;> rw [h] <;> assumption

/-- Witness for C4 at `stream = "primary"`, keys `"a"`, `"b"`. -/
theorem claim_C4_witness :
    parseBlueskyDocumentPath "#bluesky/desc/primary/a/b" =
      .ok ⟨"desc", some "primary", ["a", "b"], none⟩ := by
  have h := (claim_C4_parser_roundtrip "primary" "a" "b" rfl rfl rfl).2.2.1
  exact h

/-- C5: a mapping value containing both the reserved `_attributes` key and
the reserved `_data` key (and no `_link` key) makes the interpreter create
a dataset (not a group) named by the current key holding the inline-data
value, and the dataset carries exactly the attributes listed — in either
order of the two reserved keys. -/
theorem claim_C5_data_with_attributes (k : String) (attrsM : MdMap) (dv : MdValue)
    (a0 : List (String × MdValue)) (cs0 : List (String × H5Node))
    (hk1 : k ≠ "_data") (hk2 : k ≠ "_link") (hk3 : k ≠ "_attributes")
    (hfresh : findA cs0 k = none)
    (hdv : h5NativeOk dv = true)
    (hok : attrsAllNativeOk attrsM = true)
    (hnodup : (MdMap.keys attrsM).Nodup) :
    copyNexusMdToNexusH5
        (.cons k (.map (.cons "_attributes" (.map attrsM) (.cons "_data" dv .nil))) .nil)
        [] (.group a0 cs0) =
      .ok (.group a0 (cs0 ++ [(k, .dataset (MdMap.toListA attrsM) dv)])) ∧
    copyNexusMdToNexusH5
        (.cons k (.map (.cons "_data" dv (.cons "_attributes" (.map attrsM) .nil))) .nil)
        [] (.group a0 cs0) =
      .ok (.group a0 (cs0 ++ [(k, .dataset (MdMap.toListA attrsM) dv)])) := by
  have hattrs := setAttrsAt_dataset attrsM k a0 cs0 [] dv hfresh hok hnodup
    (fun n _ => rfl)
  constructor
  · simp [copyNexusMdToNexusH5, hk1, hk2, hk3, MdMap.find, createDatasetAt,
      modifyAtPath, hfresh, hdv, hattrs]
    simp [copyNexusMdToNexusH5.eq_def]
  · simp [copyNexusMdToNexusH5, hk1, hk2, hk3, MdMap.find, createDatasetAt,
      modifyAtPath, hfresh, hdv]
    simp [copyNexusMdToNexusH5.eq_def, hattrs]

/-- Witness for C5 at the documented `program_name` example. -/
theorem claim_C5_witness :
    copyNexusMdToNexusH5
        (.cons "program_name" (.map (.cons "_attributes"
            (.map (.cons "NDAttrName" (.str "ProgramName") .nil))
          (.cons "_data" (.str "EPICS areaDetector") .nil))) .nil)
        [] (.group [] []) =
      .ok (.group [] [("program_name",
        .dataset [("NDAttrName", .str "ProgramName")] (.str "EPICS areaDetector"))]) := by
  have h := (claim_C5_data_with_attributes "program_name"
      (.cons "NDAttrName" (.str "ProgramName") .nil) (.str "EPICS areaDetector") [] []
      (by decide) (by decide) (by decide) rfl rfl rfl (by simp [MdMap.keys])).1
  simpa [MdMap.toListA] using h

/-- C8: a `null` value at any nesting depth of a Flat Metadata Mapping is
stored as the literal string `"None"` — as an attribute by the Attribute
Copier and as dataset data by the Dataset Copier — and copying the null
leaf itself never raises. -/
theorem claim_C8_null_normalization :
    (∀ (m : MdMap) (a : List (String × MdValue)) (cs : List (String × H5Node))
        (r' : H5Node) (ps : List String) (k : String),
      mdNoDupKeys m = true →
      copyMetadataToH5Attrs m (.group a cs) = .ok r' →
      mdValueAt m (ps ++ [k]) = some .null →
      attrAtPath r' ps k = some (.str "None")) ∧
    (∀ (m : MdMap) (a : List (String × MdValue)) (cs : List (String × H5Node))
        (r' : H5Node) (ps : List String) (k : String),
      mdNoDupKeys m = true →
      copyMetadataToH5Datasets m (.group a cs) = .ok r' →
      mdValueAt m (ps ++ [k]) = some .null →
      dataAtPath r' (ps ++ [k]) = some (.str "None")) ∧
    (∀ (k : String) (a : List (String × MdValue)) (cs : List (String × H5Node)),
      copyMetadataToH5Attrs (.cons k .null .nil) (.group a cs) =
        .ok (.group (setA a k (.str "None")) cs)) ∧
    (∀ (k : String) (a : List (String × MdValue)) (cs : List (String × H5Node)),
      findA cs k = none →
      copyMetadataToH5Datasets (.cons k .null .nil) (.group a cs) =
        .ok (.group a (cs ++ [(k, .dataset [] (.str "None"))]))) := by
  refine ⟨?_, ?_, ?_, ?_⟩
  · intro m a cs r' ps k hnd h hval
    exact copyAttrs_null_deep ps m a cs r' k hnd h hval
  · intro m a cs r' ps k hnd h hval
    exact copyDatasets_leaf_deep .null (.str "None") (Or.inl ⟨rfl, rfl⟩)
      ps m a cs r' k hnd h hval
  · intro k a cs
    simp [copyMetadataToH5Attrs.eq_def, h5NativeOk]
  · intro k a cs hfresh
    simp [copyMetadataToH5Datasets.eq_def, hfresh, strBranchTest]

/-- Witness for C8: copying `{"g": {"x": None}}` with either copier at a
concrete input stores the string `"None"` at the nested location. -/
theorem claim_C8_witness :
    attrAtPath (.group [] [("g", .group [("x", .str "None")] [])]) ["g"] "x" =
      some (.str "None") ∧
    dataAtPath (.group [] [("g", .group [] [("x", .dataset [] (.str "None"))])])
      ["g", "x"] = some (.str "None") := by
  constructor
  · exact claim_C8_null_normalization.1
      (.cons "g" (.map (.cons "x" .null .nil)) .nil) [] []
      (.group [] [("g", .group [("x", .str "None")] [])]) ["g"] "x"
      (by rfl) (by rfl) (by rfl)
  · exact claim_C8_null_normalization.2.1
      (.cons "g" (.map (.cons "x" .null .nil)) .nil) [] []
      (.group [] [("g", .group [] [("x", .dataset [] (.str "None"))])]) ["g"] "x"
      (by rfl) (by rfl) (by rfl)

/-- C9: a leaf value equal to the single NUL byte is stored by the
Dataset Copier as an empty string — at any nesting depth — and copying
such a leaf never raises a storage fault. -/
theorem claim_C9_nul_byte :
    (∀ (m : MdMap) (a : List (String × MdValue)) (cs : List (String × H5Node))
        (r' : H5Node) (ps : List String) (k : String),
      mdNoDupKeys m = true →
      copyMetadataToH5Datasets m (.group a cs) = .ok r' →
      mdValueAt m (ps ++ [k]) = some (.bytes [0]) →
      dataAtPath r' (ps ++ [k]) = some (.str "")) ∧
    (∀ (k : String) (a : List (String × MdValue)) (cs : List (String × H5Node)),
      findA cs k = none →
      copyMetadataToH5Datasets (.cons k (.bytes [0]) .nil) (.group a cs) =
        .ok (.group a (cs ++ [(k, .dataset [] (.str ""))]))) := by
  constructor
  · intro m a cs r' ps k hnd h hval
    exact copyDatasets_leaf_deep (.bytes [0]) (.str "") (Or.inr ⟨rfl, rfl⟩)
      ps m a cs r' k hnd h hval
  · intro k a cs hfresh
    simp [copyMetadataToH5Datasets.eq_def, hfresh, strBranchTest]

/-- Witness for C9: copying `{"k": b"\x00"}` at a concrete input. -/
theorem claim_C9_witness :
    copyMetadataToH5Datasets (.cons "k" (.bytes [0]) .nil) (.group [] []) =
      .ok (.group [] [("k", .dataset [] (.str ""))]) :=
  claim_C9_nul_byte.2 "k" [] [] rfl

/-- C6: when a successful Dataset Copier run stored a leaf through the
JSON fallback branch (the value is not a mapping and not one of the two
normalized leaves, fails both the string test and native acceptance, and
is JSON-serializable), the dataset read back at that key holds exactly
the value's `json.dumps` text, and `json.loads` of that text reproduces
the original leaf value. -/
theorem claim_C6_json_roundtrip (k : String) (v : MdValue) (rest : MdMap)
    (attrs : List (String × MdValue)) (cs : List (String × H5Node)) (r' : H5Node)
    (hfresh : findA cs k = none)
    (hnomap : isMapV v = false)
    (hnotnull : v ≠ .null) (hnotnul : v ≠ .bytes [0])
    (hstr : strBranchTest v = false) (hnat : h5NativeOk v = false)
    (hser : jsonSerializable v = true)
    (hnodup : mdNoDupKeys (.cons k v rest) = true)
    (h : copyMetadataToH5Datasets (.cons k v rest) (.group attrs cs) = .ok r') :
    dataAtPath r' [k] = some (.str (jsonDumps v)) ∧
    jsonLoads (jsonDumps v) = some v := by
  have hstep : copyMetadataToH5Datasets (.cons k v rest) (.group attrs cs) =
      copyMetadataToH5Datasets rest
        (.group attrs (cs ++ [(k, .dataset [] (.str (jsonDumps v)))])) := by
    cases v with
    | null => exact absurd rfl hnotnull
    | bytes bs => simp [jsonSerializable] at hser
    | map m0 => simp [isMapV] at hnomap
    | bool b => rw [copyMetadataToH5Datasets.eq_def]; simp [hfresh, hstr, hnat, hser]
    | int n => rw [copyMetadataToH5Datasets.eq_def]; simp [hfresh, hstr, hnat, hser]
    | str s => rw [copyMetadataToH5Datasets.eq_def]; simp [hfresh, hstr, hnat, hser]
    | arr vs => rw [copyMetadataToH5Datasets.eq_def]; simp [hfresh, hstr, hnat, hser]
  rw [hstep] at h
  simp only [mdNoDupKeys, Bool.and_eq_true, Bool.not_eq_true'] at hnodup
  obtain ⟨cs', hr', hfind⟩ := copyDatasets_preserve rest attrs
    (cs ++ [(k, .dataset [] (.str (jsonDumps v)))]) r' k h hnodup.1.1
  rw [findA_append_fresh cs k _ hfresh] at hfind
  subst hr'
  constructor
  · simp [dataAtPath, getAtPath, getChild, hfind]
  · exact jsonLoads_jsonDumps v hser

/-- Witness for C6: copying `{"ragged": [[["time"], "primary"]]}` — the
documented h5py-refused value — stores its JSON text, which decodes back
to the original value. -/
theorem claim_C6_witness :
    findA ([] : List (String × H5Node)) "ragged" = none ∧
    isMapV raggedDimensionsValue = false ∧
    raggedDimensionsValue ≠ MdValue.null ∧
    raggedDimensionsValue ≠ MdValue.bytes [0] ∧
    strBranchTest raggedDimensionsValue = false ∧
    h5NativeOk raggedDimensionsValue = false ∧
    jsonSerializable raggedDimensionsValue = true ∧
    mdNoDupKeys (.cons "ragged" raggedDimensionsValue .nil) = true ∧
    copyMetadataToH5Datasets (.cons "ragged" raggedDimensionsValue .nil)
      (.group [] []) =
      .ok (.group []
        [("ragged", .dataset [] (.str (jsonDumps raggedDimensionsValue)))]) ∧
    (dataAtPath
        (.group []
          [("ragged", .dataset [] (.str (jsonDumps raggedDimensionsValue)))])
        ["ragged"] = some (.str (jsonDumps raggedDimensionsValue)) ∧
      jsonLoads (jsonDumps raggedDimensionsValue) =
        some raggedDimensionsValue) :=
  ⟨rfl, rfl, by simp [raggedDimensionsValue], by simp [raggedDimensionsValue],
   rfl, rfl, rfl, rfl, rfl,
   claim_C6_json_roundtrip "ragged" raggedDimensionsValue .nil [] []
     (.group []
       [("ragged", .dataset [] (.str (jsonDumps raggedDimensionsValue)))])
     rfl rfl (by simp [raggedDimensionsValue]) (by simp [raggedDimensionsValue])
     rfl rfl rfl rfl rfl⟩

/-- C7: on a value the HDF5 layer refuses as an attribute, the Attribute
Copier recovers by storing the value's JSON text, while the Tree
Interpreter's `_attributes` rule has no fallback and the `TypeError`
propagates: the two components behave asymmetrically on the same value. -/
theorem claim_C7_attribute_asymmetry (k : String) (v : MdValue)
    (a0 : List (String × MdValue)) (cs0 : List (String × H5Node))
    (hnotnull : v ≠ .null) (hnotmap : isMapV v = false)
    (hrefused : h5NativeOk v = false) (hser : jsonSerializable v = true) :
    copyMetadataToH5Attrs (.cons k v .nil) (.group a0 cs0) =
      .ok (.group (setA a0 k (.str (jsonDumps v))) cs0) ∧
    copyNexusMdToNexusH5 (.cons "_attributes" (.map (.cons k v .nil)) .nil) []
      (.group a0 cs0) = .error "TypeError" := by
  constructor
  · cases v with
    | null => exact absurd rfl hnotnull
    | map m0 => simp [isMapV] at hnotmap
    | str s => simp [h5NativeOk] at hrefused
    | int n => simp [h5NativeOk] at hrefused
    | bool b => simp [h5NativeOk] at hrefused
    | bytes bs => simp [h5NativeOk] at hrefused
    | arr vs => simp [copyMetadataToH5Attrs.eq_def, hrefused, hser]
  · simp [copyNexusMdToNexusH5.eq_def, setAttrsAt.eq_def, modifyAtPath,
      setAttrNode, hrefused]

/-- Witness for C7 at the documented refused value
`{'dimensions': [[['time'], 'primary']]}`. -/
theorem claim_C7_witness :
    copyMetadataToH5Attrs (.cons "dimensions" raggedDimensionsValue .nil)
        (.group [] []) =
      .ok (.group (setA [] "dimensions" (.str (jsonDumps raggedDimensionsValue))) []) ∧
    copyNexusMdToNexusH5
        (.cons "_attributes" (.map (.cons "dimensions" raggedDimensionsValue .nil)) .nil)
        [] (.group [] []) = .error "TypeError" :=
  claim_C7_attribute_asymmetry "dimensions" raggedDimensionsValue [] []
    (by simp [raggedDimensionsValue]) rfl rfl rfl

/-- C10 as stated is false: a string beginning with `#bluesky` appearing
as the value of the reserved `_data` key is stored literally as dataset
data by the interpreter. -/
theorem claim_C10_counterexample :
    copyNexusMdToNexusH5
        (.cons "k" (.map (.cons "_data" (.str "#bluesky/start/x") .nil)) .nil)
        [] (.group [] []) =
      .ok (.group [] [("k", .dataset [] (.str "#bluesky/start/x"))]) := rfl

/-- C10 (amended): for every non-reserved key whose value is directly a
string beginning with `#bluesky`, the interpreter treats the value as a
reference: the outcome is either an error or a created link, never a
dataset holding the literal string. -/
theorem claim_C10_amended (k s : String) (path : List String) (root : H5Node)
    (hk1 : k ≠ "_data") (hk2 : k ≠ "_link") (hk3 : k ≠ "_attributes")
    (hs : startsWithBluesky s = true) :
    (∃ e, copyNexusMdToNexusH5 (.cons k (.str s) .nil) path root = .error e) ∨
    (∃ r' tgt, copyNexusMdToNexusH5 (.cons k (.str s) .nil) path root = .ok r' ∧
      getAtPath r' (path ++ [k]) = some (.link tgt)) := by
  unfold copyNexusMdToNexusH5
  simp only [hk1, hk2, hk3, hs, or_self, if_false, if_true]
  cases hp : parseBlueskyDocumentPath s with
  | error e => exact Or.inl ⟨e, rfl⟩
  | ok p =>
      cases hg : getH5GroupOrDataset p root with
      | error e => exact Or.inl ⟨e, by simp [hg]⟩
      | ok n0 =>
          cases hi : insertLinkAt root path k (blueskyTargetPath p) with
          | error e => exact Or.inl ⟨e, by simp [hg, hi]⟩
          | ok root1 =>
              refine Or.inr ⟨root1, blueskyTargetPath p, ?_, ?_⟩
              · simp [hg, hi, copyNexusMdToNexusH5]
              · exact insertLinkAt_get root path k _ root1 hi

/-- Witness for C10 (amended) at a resolvable reference over `rootC3`. -/
theorem claim_C10_amended_witness :
    (∃ e, copyNexusMdToNexusH5
        (.cons "t" (.str "#bluesky/start/sample_name") .nil) [] rootC3 = .error e) ∨
    (∃ r' tgt, copyNexusMdToNexusH5
        (.cons "t" (.str "#bluesky/start/sample_name") .nil) [] rootC3 = .ok r' ∧
      getAtPath r' ([] ++ ["t"]) = some (.link tgt)) :=
  claim_C10_amended "t" "#bluesky/start/sample_name" [] rootC3
    (by decide) (by decide) (by decide) rfl

end SuitcaseSas
